import Mathlib

/-!
Verification of the Pi Cluster master-node dispatch engine
(`master_node/app/app.py`) against its natural-language specification.

The Redis record store is embedded shallowly: a Redis hash is an association
list of string fields, the keyspace is split into hash-typed keys and
list-typed keys (Redis lists), and every Flask route body that the claims
mention is translated into a pure function on that store.  Wall-clock
timestamps are modelled as natural-number seconds rendered as decimal digit
strings; `strptime`/`fromisoformat` become a digit parser, and Python's
naive-versus-aware `datetime` distinction is carried explicitly (an aware
ISO string bears the `+00:00` suffix, and subtracting datetimes of different
awareness raises, exactly as in CPython).  Python exceptions are modelled as
`Except`/`Option String` error results that carry the store as mutated up to
the point of the raise.
-/

namespace PiCluster

/-- Association-list lookup: the first entry with the given key, if any.
This is both Python dict lookup on a materialised hash and the Redis
keyspace lookup. -/
def lookupA {α : Type} : List (String × α) → String → Option α
  | [], _ => none
  | (b, x) :: t, k => if b = k then some x else lookupA t k

/-- Association-list update: replace the first entry in place, or append a
fresh entry at the end. -/
def updateA {α : Type} : List (String × α) → String → α → List (String × α)
  | [], k, x => [(k, x)]
  | (b, y) :: t, k, x => if b = k then (k, x) :: t else (b, y) :: updateA t k x

/-- A Redis hash: an ordered association list from field names to values.
`hgetall` in the code materialises it as a Python dict, so well-formed
hashes have pairwise-distinct field names. -/
abbrev Hash := List (String × String)

/-- Dict lookup `d.get(f)`: the first binding of the field, if any. -/
def Hash.get (h : Hash) (f : String) : Option String := lookupA h f

/-- Dict assignment `d[f] = v`: replace the first binding in place, or
append a fresh binding. -/
def Hash.set (h : Hash) (f v : String) : Hash := updateA h f v

/-- Redis `r.hset(key, mapping=m)` merges the mapping `m` field by field into an
existing hash. -/
def Hash.merge (h m : Hash) : Hash :=
  m.foldl (fun a fv => a.set fv.1 fv.2) h

/-- Field names of a hash. -/
def Hash.fields (h : Hash) : List String := h.map Prod.fst

/-- A hash that a real Redis server can hold: field names are distinct. -/
def Hash.wff (h : Hash) : Prop := h.fields.Nodup

instance (h : Hash) : Decidable h.wff :=
  inferInstanceAs (Decidable h.fields.Nodup)

/-- Python truthiness of `d.get(f)`: present and a nonempty string. -/
def truthy (v : Option String) : Bool :=
  match v with
  | none => false
  | some s => !(s == "")

/-- The Redis keyspace as the dispatch engine uses it: hash-typed keys
(job records and `worker:*` records) and list-typed keys (the priority
queues).  Redis never stores an empty list, so an entry mapping a key to
`[]` counts as an absent key. -/
structure Store where
  hashes : List (String × Hash)
  lists : List (String × List String)
deriving DecidableEq

/-- Redis `r.hgetall(k)`: the hash at `k`, or the empty dict when absent. -/
def Store.hgetall (s : Store) (k : String) : Hash :=
  (lookupA s.hashes k).getD []

/-- Redis `r.hset(k, mapping=m)`. -/
def Store.hset (s : Store) (k : String) (m : Hash) : Store :=
  { s with hashes := updateA s.hashes k (Hash.merge (s.hgetall k) m) }

/-- Redis `r.lrange(k, 0, -1)`: the whole list at `k`, empty when the key is absent. -/
def Store.lrange (s : Store) (k : String) : List String :=
  (lookupA s.lists k).getD []

/-- Overwrite the list stored at `k`. -/
def Store.setList (s : Store) (k : String) (l : List String) : Store :=
  { s with lists := updateA s.lists k l }

/-- Redis `r.rpush(k, v)`: append to the tail. -/
def Store.rpush (s : Store) (k v : String) : Store :=
  s.setList k (s.lrange k ++ [v])

/-- Redis `r.lpop(k)`: remove and return the head, `None` on an empty/absent key. -/
def Store.lpop (s : Store) (k : String) : Option String × Store :=
  match s.lrange k with
  | [] => (none, s)
  | x :: xs => (some x, s.setList k xs)

/-- Redis `r.lrem(k, 0, v)`: remove every occurrence of `v`. -/
def Store.lrem (s : Store) (k v : String) : Store :=
  s.setList k ((s.lrange k).filter (fun x => x != v))

/-- Redis `r.delete(k)`: drop the key whatever its type. -/
def Store.del (s : Store) (k : String) : Store :=
  { hashes := s.hashes.filter (fun kv => kv.1 != k),
    lists := s.lists.filter (fun kv => kv.1 != k) }

/-- The queue key for a priority string: `job_queue_prio{p}`. -/
def qn (p : String) : String := "job_queue_prio" ++ p

/-- The three priority-queue keys, in claim order 0, 1, 2. -/
def queueNames : List String := [qn "0", qn "1", qn "2"]

/-- Every id currently held by the Priority Queue Set, queue 0 first. -/
def Store.queueMembers (s : Store) : List String :=
  s.lrange (qn "0") ++ s.lrange (qn "1") ++ s.lrange (qn "2")

/-! ### Timestamps

`now_str()` renders the wall clock as `"%Y-%m-%d %H:%M:%S"`; that format is
order- and difference-isomorphic to seconds since an epoch, so the model
renders a clock reading `t : Nat` as the decimal string `toString t` and
`strptime` becomes a decimal parser.  `datetime.isoformat` additionally
distinguishes naive from timezone-aware values; an aware reading is rendered
with the CPython `+00:00` suffix. -/

/-- The numeric value of a decimal digit character. -/
def digitVal (c : Char) : Option Nat :=
  if '0' ≤ c ∧ c ≤ '9' then some (c.toNat - '0'.toNat) else none

/-- Fold a digit string into a number, failing on a non-digit. -/
def decNatGo : List Char → Nat → Option Nat
  | [], acc => some acc
  | c :: t, acc =>
    match digitVal c with
    | none => none
    | some d => decNatGo t (acc * 10 + d)

/-- Parse a nonempty all-digit character list. -/
def decNat (l : List Char) : Option Nat :=
  match l with
  | [] => none
  | _ => decNatGo l 0

/-- Python `datetime.strptime(s, "%Y-%m-%d %H:%M:%S")`, on the model's rendering
of clock readings. -/
def parseTime (str : String) : Option Nat := decNat str.data

/-- Helper `calc_elapsed(start, end)`: parse both timestamps and subtract; a raise
from `strptime` is an `error`. -/
def calc_elapsed (start finish : String) : Except String Int :=
  match parseTime start, parseTime finish with
  | some a, some b => .ok ((b : Int) - a)
  | _, _ => .error "strptime: ValueError"

/-- A parsed `datetime`: its tz-awareness and its reading in seconds. -/
structure DT where
  aware : Bool
  sec : Nat
deriving DecidableEq

/-- Python `datetime.isoformat()` of a clock reading: aware values carry the
`+00:00` suffix, naive values do not. -/
def isoString (d : DT) : String :=
  if d.aware then toString d.sec ++ "+00:00" else toString d.sec

/-- The `+00:00` suffix, reversed for suffix matching. -/
def tzSuffixRev : List Char := ['0', '0', ':', '0', '0', '+']

/-- Python `datetime.fromisoformat(v)` where `v` is `d.get(...)`: raises
`TypeError` on `None`, `ValueError` on an unparseable string, and records
whether the parsed value is timezone-aware. -/
def fromisoformat (v : Option String) : Except String DT :=
  match v with
  | none => .error "TypeError: fromisoformat argument must be str"
  | some str =>
    let l := str.data
    if l.reverse.take 6 = tzSuffixRev then
      match decNat (l.reverse.drop 6).reverse with
      | some t => .ok ⟨true, t⟩
      | none => .error "ValueError: invalid isoformat string"
    else
      match decNat l with
      | some t => .ok ⟨false, t⟩
      | none => .error "ValueError: invalid isoformat string"

/-- Subtraction of two `datetime`s, in seconds: CPython raises `TypeError`
when one side is naive and the other aware. -/
def dtSub (a b : DT) : Except String Int :=
  if a.aware = b.aware then .ok ((a.sec : Int) - (b.sec : Int))
  else .error "TypeError: cannot subtract offset-naive and offset-aware datetimes"

/-! ### Job routes -/

/-- The job hash written by `upload`: all eleven fields, in source order. -/
def uploadRecord (jobId filename priority ts : String) : Hash :=
  [("id", jobId), ("filename", filename), ("priority", priority),
   ("status", "queued"), ("timestamp_queued", ts), ("timestamp_claimed", ""),
   ("timestamp_completed", ""), ("claimed_by", ""), ("elapsed_seconds", ""),
   ("result_filename", ""), ("collected", "False")]

/-- Route `POST /upload`: validate the priority, create the job record, and push
the id onto that priority's queue.  The blob upload to MinIO is external
state and is not part of the record store.  `jobId` stands for the fresh
`uuid4` and `ts` for `now_str()`. -/
def upload (jobId filename priority ts : String) (s : Store) :
    Store × Except String Hash :=
  if priority = "0" ∨ priority = "1" ∨ priority = "2" then
    let jd := uploadRecord jobId filename priority ts
    let s := s.hset jobId jd
    let s := s.rpush (qn priority) jobId
    (s, .ok jd)
  else
    (s, .error "Priority must be 0, 1, or 2")

/-- The `for p in ["0","1","2"]: job_id = r.lpop(...); if job_id: break`
loop of `claim_job`.  An empty pop, or a popped empty string (falsy in
Python), moves on to the next queue; the pop itself is not undone. -/
def popLoop : List String → Store → Option String × Store
  | [], s => (none, s)
  | p :: ps, s =>
    match s.lpop (qn p) with
    | (some v, s₁) => if v = "" then popLoop ps s₁ else (some v, s₁)
    | (none, s₁) => popLoop ps s₁

/-- Route `POST /claim_job`: pop the highest-priority id, load its record, mark
it claimed, persist, and return it; `none` is the "No jobs in any queue"
response.  `now` stands for `now_str()` and `ip` for the caller address.
Note the code does not check that the popped id still has a record: on a
missing record `hgetall` yields the empty dict and the three claim fields
are written back as a fresh record. -/
def claim_job (ip now : String) (s : Store) : Store × Option Hash :=
  match popLoop ["0", "1", "2"] s with
  | (none, s₁) => (s₁, none)
  | (some jobId, s₁) =>
    let job := s₁.hgetall jobId
    let job := job.set "status" "claimed"
    let job := job.set "timestamp_claimed" now
    let job := job.set "claimed_by" ip
    (s₁.hset jobId job, some job)

/-- Route `POST /upload_result/<job_id>`: 404 on a missing record; otherwise
store the result reference, mark completed, stamp completion, and—when a
claim timestamp is present (truthy)—record the elapsed seconds computed by
`calc_elapsed`.  A `strptime` raise aborts before the write-back.
`resultName` stands for the stored blob key and `now` for `now_str()`. -/
def upload_result (jobId resultName now : String) (s : Store) :
    Store × Except String String :=
  let job := s.hgetall jobId
  if job = [] then (s, .error "Job not found")
  else
    let job := job.set "result_filename" resultName
    let job := job.set "status" "completed"
    let job := job.set "timestamp_completed" now
    let job := job.set "collected" "False"
    if truthy (job.get "timestamp_claimed") then
      match calc_elapsed ((job.get "timestamp_claimed").getD "") now with
      | .error e => (s, .error e)
      | .ok d =>
        let job := job.set "elapsed_seconds" (toString d)
        (s.hset jobId job, .ok resultName)
    else
      (s.hset jobId job, .ok resultName)

/-- Route `POST /mark_collected/<job_id>`: 404 on a missing record, 400 with the
state unchanged unless status is `completed`, else set `collected` and
answer with the success message. -/
def mark_collected (jobId : String) (s : Store) :
    Store × Except String String :=
  let job := s.hgetall jobId
  if job = [] then (s, .error "Job not found")
  else if job.get "status" ≠ some "completed" then
    (s, .error "Job not completed yet")
  else
    let job := job.set "collected" "True"
    (s.hset jobId job, .ok ("Job " ++ jobId ++ " marked as collected."))

/-- Route `POST /delete_job/<job_id>`: 404 on a missing record, else remove the
id from every priority queue, delete the record, and best-effort delete the
blobs (external, not modelled in the store). -/
def delete_job (jobId : String) (s : Store) : Store × Except String String :=
  if s.hgetall jobId = [] then (s, .error "Job not found")
  else
    let s := s.lrem (qn "0") jobId
    let s := s.lrem (qn "1") jobId
    let s := s.lrem (qn "2") jobId
    let s := s.del jobId
    (s, .ok ("Job " ++ jobId ++ " deleted."))

/-! ### Startup recovery -/

/-- One iteration of the `repopulate_queues` loop over a job snapshot: a
record in status `queued` is pushed onto `job_queue_prio{priority}` (the
priority field defaulting to `"1"`) unless its `id` field is already a
member there; `job["id"]` on a record without an `id` field raises
`KeyError`, which aborts the loop with the mutations made so far kept. -/
def repopStep (acc : Store × Nat × Option String) (job : Hash) :
    Store × Nat × Option String :=
  match acc with
  | (s, n, some e) => (s, n, some e)
  | (s, n, none) =>
    if job.get "status" = some "queued" then
      let qname := qn ((job.get "priority").getD "1")
      match job.get "id" with
      | none => (s, n, some "KeyError: id")
      | some jid =>
        if jid ∈ s.lrange qname then (s, n, none)
        else (s.rpush qname jid, n + 1, none)
    else (s, n, none)

/-- Recovery `repopulate_queues()`: snapshot every hash-typed record (jobs and
workers alike — worker records carry status `online` and are skipped by the
`queued` test), then re-enqueue each queued record missing from its
priority's queue, counting the restores. -/
def repopulate_queues (s : Store) : Store × Nat × Option String :=
  (s.hashes.map Prod.snd).foldl repopStep (s, 0, none)

/-! ### Worker registry -/

/-- Whether a key belongs to the Worker Registry (`r.keys("worker:*")`). -/
def isWorkerKey (k : String) : Bool := k.data.take 7 = "worker:".data

/-- The snapshot of registry keys a scan iterates over. -/
def workerKeys (s : Store) : List String :=
  (s.hashes.map Prod.fst).filter isWorkerKey

/-- Route `POST /register_worker`: upsert the descriptor hash under
`worker:{workerId}` with `last_heartbeat = datetime.now().isoformat()` — a
*naive* timestamp (`nowSec` stands for the clock reading). -/
def register_worker (workerId hostname ip osDesc cpu kernel runner : String)
    (nowSec : Nat) (s : Store) : Store :=
  s.hset ("worker:" ++ workerId)
    [("worker_id", workerId), ("hostname", hostname), ("ip", ip),
     ("os", osDesc), ("cpu", cpu), ("kernel", kernel),
     ("task_runner", runner),
     ("last_heartbeat", isoString ⟨false, nowSec⟩), ("status", "online")]

/-- The `GET /workers` scan.  `now = datetime.now(timezone.utc)` is
*aware*; the `try` covers only `fromisoformat` (and the `KeyError` of
`w["last_heartbeat"]`), so a parse failure deletes the record and moves on,
but the subtraction `now - last` sits outside the `try` and a `TypeError`
there propagates, aborting the scan. -/
def getWorkersGo (nowSec : Nat) :
    List String → Store → List Hash → Store × Except String (List Hash)
  | [], s, acc => (s, .ok acc)
  | k :: ks, s, acc =>
    let w := s.hgetall k
    if w = [] then getWorkersGo nowSec ks (s.del k) acc
    else
      match fromisoformat (w.get "last_heartbeat") with
      | .error _ => getWorkersGo nowSec ks (s.del k) acc
      | .ok last =>
        match dtSub ⟨true, nowSec⟩ last with
        | .error e => (s, .error e)
        | .ok elapsed =>
          if elapsed > 20 then getWorkersGo nowSec ks (s.del k) acc
          else getWorkersGo nowSec ks s (acc ++ [w])

/-- Route `GET /workers`: return only workers whose heartbeat is within the
20-second cutoff, deleting stale or unparseable records as a side effect. -/
def get_workers (nowSec : Nat) (s : Store) :
    Store × Except String (List Hash) :=
  getWorkersGo nowSec (workerKeys s) s []

/-- The `prune_dead_workers` scan.  `now = datetime.now()` is *naive*, and
nothing here is wrapped in `try`: a missing `last_heartbeat`
(`w.get` returning `None`), an unparseable one, or an awareness mismatch in
the subtraction raises to the caller, aborting the scan with the deletions
made so far kept. -/
def pruneGo (tmo : Int) (nowSec : Nat) :
    List String → Store → Store × Option String
  | [], s => (s, none)
  | k :: ks, s =>
    let w := s.hgetall k
    if w = [] then pruneGo tmo nowSec ks (s.del k)
    else
      match fromisoformat (w.get "last_heartbeat") with
      | .error e => (s, some e)
      | .ok last =>
        match dtSub ⟨false, nowSec⟩ last with
        | .error e => (s, some e)
        | .ok elapsed =>
          if elapsed > tmo then pruneGo tmo nowSec ks (s.del k)
          else pruneGo tmo nowSec ks s

/-- Pruner `prune_dead_workers(timeout)`: delete every worker whose last heartbeat
is older than `timeout` seconds. -/
def prune_dead_workers (tmo : Int) (nowSec : Nat) (s : Store) :
    Store × Option String :=
  pruneGo tmo nowSec (workerKeys s) s

/-! ### Bulk purge -/

/-- The keys `r.scan_iter("*")` yields: every live key of either type
(Redis holds no empty lists, so only nonempty list entries are live). -/
def Store.liveKeys (s : Store) : List String :=
  s.hashes.map Prod.fst ++
    (s.lists.filter (fun kv => !kv.2.isEmpty)).map Prod.fst

/-- Route `POST /purge_all`: delete every key in the store, counting each one as
a "deleted job", then (redundantly) delete the three queue keys.  The MinIO
side and its separate file count are external. -/
def purge_all (s : Store) : Store × Nat :=
  let keys := s.liveKeys
  let sn := keys.foldl (fun (a : Store × Nat) k => (a.1.del k, a.2 + 1)) (s, 0)
  let s₂ := queueNames.foldl (fun a k => Store.del a k) sn.1
  (s₂, sn.2)

/-! ### Association-list lemmas -/

theorem lookupA_updateA_self {α : Type} (l : List (String × α)) (k : String)
    (x : α) : lookupA (updateA l k x) k = some x := by
  induction l with
  | nil => simp [updateA, lookupA]
  | cons hd t ih =>
    obtain ⟨b, y⟩ := hd
    by_cases hb : b = k
    · simp [updateA, hb, lookupA]
    · simp [updateA, hb, lookupA, ih]

theorem lookupA_updateA_ne {α : Type} (l : List (String × α)) {k q : String}
    (hne : q ≠ k) (x : α) : lookupA (updateA l k x) q = lookupA l q := by
  induction l with
  | nil => simp [updateA, lookupA, Ne.symm hne]
  | cons hd t ih =>
    obtain ⟨b, y⟩ := hd
    by_cases hb : b = k
    · subst hb
      simp [updateA, lookupA, Ne.symm hne]
    · by_cases hq : b = q <;> simp [updateA, hb, lookupA, hq, hne, ih]

theorem keys_updateA {α : Type} (l : List (String × α)) (k : String) (x : α) :
    (updateA l k x).map Prod.fst =
      if k ∈ l.map Prod.fst then l.map Prod.fst else l.map Prod.fst ++ [k] := by
  induction l with
  | nil => simp [updateA]
  | cons hd t ih =>
    obtain ⟨b, y⟩ := hd
    by_cases hb : b = k
    · simp [updateA, hb]
    · simp only [updateA, if_neg hb, List.map_cons, ih]
      by_cases hk : k ∈ t.map Prod.fst
      · simp [hk, Ne.symm hb]
      · simp [hk, Ne.symm hb]

theorem nodup_keys_updateA {α : Type} (l : List (String × α)) (k : String)
    (x : α) (h : (l.map Prod.fst).Nodup) :
    ((updateA l k x).map Prod.fst).Nodup := by
  rw [keys_updateA]
  by_cases hk : k ∈ l.map Prod.fst
  · simpa [hk] using h
  · rw [if_neg hk]
    exact h.append (List.nodup_singleton k) (by simpa using hk)

theorem lookupA_eq_none_of_not_mem {α : Type} (l : List (String × α))
    {k : String} (hk : k ∉ l.map Prod.fst) : lookupA l k = none := by
  induction l with
  | nil => rfl
  | cons hd t ih =>
    obtain ⟨b, y⟩ := hd
    simp only [List.map_cons, List.mem_cons] at hk
    push_neg at hk
    simp [lookupA, Ne.symm hk.1, ih hk.2]

theorem lookupA_filterOut_self {α : Type} (l : List (String × α))
    (k : String) : lookupA (l.filter (fun kv => kv.1 != k)) k = none := by
  induction l with
  | nil => rfl
  | cons hd t ih =>
    obtain ⟨b, y⟩ := hd
    by_cases hb : b = k
    · simpa [List.filter_cons, hb] using ih
    · simpa [List.filter_cons, bne_iff_ne, hb, lookupA] using ih

theorem lookupA_filterOut_ne {α : Type} (l : List (String × α))
    {k q : String} (hne : q ≠ k) :
    lookupA (l.filter (fun kv => kv.1 != k)) q = lookupA l q := by
  induction l with
  | nil => rfl
  | cons hd t ih =>
    obtain ⟨b, y⟩ := hd
    by_cases hb : b = k
    · subst hb
      simp [List.filter_cons, lookupA, Ne.symm hne, ih]
    · by_cases hq : b = q
      · subst hq
        simp [List.filter_cons, bne_iff_ne, hb, lookupA]
      · simp [List.filter_cons, bne_iff_ne, hb, lookupA, hq, ih]

/-! ### Hash lemmas -/

theorem Hash.get_set_self (h : Hash) (f v : String) :
    (h.set f v).get f = some v := lookupA_updateA_self h f v

theorem Hash.get_set_ne (h : Hash) {f g : String} (hne : g ≠ f)
    (v : String) : (h.set f v).get g = h.get g := lookupA_updateA_ne h hne v

theorem Hash.wff_set (h : Hash) (f v : String) (hw : h.wff) :
    (h.set f v).wff := nodup_keys_updateA h f v hw

theorem Hash.get_eq_none_of_not_mem (h : Hash) {f : String}
    (hf : f ∉ h.fields) : h.get f = none := lookupA_eq_none_of_not_mem h hf

/-- Merging a well-formed mapping reads back as: the mapping's binding if
present, the old hash's binding otherwise. -/
theorem Hash.get_merge (h m : Hash) (hm : m.wff) (f : String) :
    Hash.get (Hash.merge h m) f =
      match Hash.get m f with
      | some v => some v
      | none => Hash.get h f := by
  induction m generalizing h with
  | nil => rfl
  | cons fv t ih =>
    obtain ⟨g, v⟩ := fv
    have hm0 : (g :: t.map Prod.fst).Nodup := hm
    have hg := (List.nodup_cons.mp hm0).1
    have ht : Hash.wff t := (List.nodup_cons.mp hm0).2
    have step : Hash.merge h ((g, v) :: t) = Hash.merge (Hash.set h g v) t :=
      rfl
    rw [step, ih (Hash.set h g v) ht]
    by_cases hf : f = g
    · subst hf
      have hnone : Hash.get t f = none :=
        Hash.get_eq_none_of_not_mem t (by simpa [Hash.fields] using hg)
      have hright : Hash.get ((f, v) :: t) f = some v := by
        simp [Hash.get, lookupA]
      rw [hnone, hright]
      exact Hash.get_set_self h f v
    · have hpass : Hash.get (Hash.set h g v) f = Hash.get h f :=
        Hash.get_set_ne h hf v
      have hright : Hash.get ((g, v) :: t) f = Hash.get t f := by
        simp [Hash.get, lookupA, Ne.symm hf]
      rw [hright]
      cases hgt : Hash.get t f <;> simp [hpass]

theorem Hash.wff_merge (h m : Hash) (hw : h.wff) : (h.merge m).wff := by
  induction m generalizing h with
  | nil => exact hw
  | cons fv t ih => exact ih (h.set fv.1 fv.2) (h.wff_set fv.1 fv.2 hw)

theorem Hash.ne_nil_of_get (h : Hash) {f v : String}
    (hg : h.get f = some v) : h ≠ [] := by
  intro hnil
  subst hnil
  simp [Hash.get, lookupA] at hg

/-! ### Store lemmas -/

theorem Store.hgetall_hset_self (s : Store) (k : String) (m : Hash) :
    (s.hset k m).hgetall k = (s.hgetall k).merge m := by
  simp [Store.hset, Store.hgetall, lookupA_updateA_self]

theorem Store.hgetall_hset_ne (s : Store) {k q : String} (hne : q ≠ k)
    (m : Hash) : (s.hset k m).hgetall q = s.hgetall q := by
  simp [Store.hset, Store.hgetall, lookupA_updateA_ne _ hne]

theorem Store.lrange_hset (s : Store) (k : String) (m : Hash) (q : String) :
    (s.hset k m).lrange q = s.lrange q := rfl

theorem Store.hgetall_setList (s : Store) (k : String) (l : List String)
    (q : String) : (s.setList k l).hgetall q = s.hgetall q := rfl

theorem Store.lrange_setList_self (s : Store) (k : String)
    (l : List String) : (s.setList k l).lrange k = l := by
  simp [Store.setList, Store.lrange, lookupA_updateA_self]

theorem Store.lrange_setList_ne (s : Store) {k q : String} (hne : q ≠ k)
    (l : List String) : (s.setList k l).lrange q = s.lrange q := by
  simp [Store.setList, Store.lrange, lookupA_updateA_ne _ hne]

theorem Store.lrange_rpush_self (s : Store) (k v : String) :
    (s.rpush k v).lrange k = s.lrange k ++ [v] :=
  Store.lrange_setList_self s k _

theorem Store.lrange_rpush_ne (s : Store) {k q : String} (hne : q ≠ k)
    (v : String) : (s.rpush k v).lrange q = s.lrange q :=
  Store.lrange_setList_ne s hne _

theorem Store.hgetall_rpush (s : Store) (k v : String) (q : String) :
    (s.rpush k v).hgetall q = s.hgetall q := rfl

theorem Store.hashes_rpush (s : Store) (k v : String) :
    (s.rpush k v).hashes = s.hashes := rfl

theorem Store.hgetall_del_self (s : Store) (k : String) :
    (s.del k).hgetall k = [] := by
  simp [Store.del, Store.hgetall, lookupA_filterOut_self]

theorem Store.hgetall_del_ne (s : Store) {k q : String} (hne : q ≠ k) :
    (s.del k).hgetall q = s.hgetall q := by
  simp [Store.del, Store.hgetall, lookupA_filterOut_ne _ hne]

theorem Store.lrange_del_ne (s : Store) {k q : String} (hne : q ≠ k) :
    (s.del k).lrange q = s.lrange q := by
  simp [Store.del, Store.lrange, lookupA_filterOut_ne _ hne]

/-! ### Shared concrete states for witnesses and counterexamples -/

/-- One job, freshly uploaded at priority 1 and still queued. -/
def exQueued : Store :=
  ⟨[("j1", uploadRecord "j1" "in.zip" "1" "10")], [(qn "1", ["j1"])]⟩

/-- One job that has been claimed and completed (the queue is empty). -/
def exCompleted : Store :=
  ⟨[("j2",
     [("id", "j2"), ("filename", "in.zip"), ("priority", "1"),
      ("status", "completed"), ("timestamp_queued", "10"),
      ("timestamp_claimed", "12"), ("timestamp_completed", "20"),
      ("claimed_by", "10.0.0.5"), ("elapsed_seconds", "8"),
      ("result_filename", "res.txt"), ("collected", "False")])], []⟩

/-- One job that has been claimed but not yet completed. -/
def exClaimed : Store :=
  ⟨[("j3",
     [("id", "j3"), ("filename", "in.zip"), ("priority", "0"),
      ("status", "claimed"), ("timestamp_queued", "10"),
      ("timestamp_claimed", "12"), ("timestamp_completed", ""),
      ("claimed_by", "10.0.0.5"), ("elapsed_seconds", ""),
      ("result_filename", ""), ("collected", "False")])], []⟩

/-- A queue holding an id with no backing record, ahead of a real job. -/
def ghostStore : Store :=
  ⟨[("real1", uploadRecord "real1" "f.zip" "1" "10")],
   [(qn "0", ["ghost"]), (qn "1", ["real1"])]⟩

/-! ### Helper: `mark_collected` on an existing completed job -/

theorem mark_collected_completed (s : Store) (jobId : String) (h : Hash)
    (heq : s.hgetall jobId = h)
    (hst : Hash.get h "status" = some "completed") :
    mark_collected jobId s =
      (s.hset jobId (Hash.set h "collected" "True"),
       .ok ("Job " ++ jobId ++ " marked as collected.")) := by
  have hne : h ≠ [] := Hash.ne_nil_of_get h hst
  simp [mark_collected, heq, hne, hst]

/-- Field view of writing back a single-field update: the written field
reads the new value, every other field reads as before. -/
theorem Hash.get_merge_set (h : Hash) (hwf : h.wff) (f g v : String) :
    Hash.get (Hash.merge h (Hash.set h f v)) g
      = if g = f then some v else Hash.get h g := by
  rw [Hash.get_merge h _ (Hash.wff_set h f v hwf) g]
  by_cases hg : g = f
  · subst hg
    simp [Hash.get_set_self]
  · rw [Hash.get_set_ne h hg]
    cases hx : Hash.get h g <;> simp [hg, hx]

/-! ### C8 -/

/-- C8: for every existing job whose status is `queued` or `claimed`,
`mark_collected` fails with the InvalidState error ("Job not completed
yet") and returns with the store — hence the job record, its `collected`
flag and every other field — completely unchanged. -/
theorem C8_mark_collected_rejects_uncompleted (s : Store) (jobId st : String)
    (hst : Hash.get (s.hgetall jobId) "status" = some st)
    (hqc : st = "queued" ∨ st = "claimed") :
    mark_collected jobId s = (s, .error "Job not completed yet") := by
  have hne : s.hgetall jobId ≠ [] := Hash.ne_nil_of_get _ hst
  have hcomp : Hash.get (s.hgetall jobId) "status" ≠ some "completed" := by
    rw [hst]
    rcases hqc with h | h <;> subst h <;> decide
  simp [mark_collected, hne, hcomp]

/-- C8 witness: a queued job is rejected with the state unchanged. -/
theorem C8_witness :
    Hash.get (exQueued.hgetall "j1") "status" = some "queued" ∧
    mark_collected "j1" exQueued = (exQueued, .error "Job not completed yet") :=
  ⟨by decide,
   C8_mark_collected_rejects_uncompleted exQueued "j1" "queued" (by decide)
     (Or.inl rfl)⟩

/-! ### C9 -/

/-- C9: `mark_collected` is idempotent on completed jobs: both calls return
the same success message, and after each call the record reads
`collected = "True"` with every other field exactly as before. -/
theorem C9_mark_collected_idempotent (s : Store) (jobId : String) (h : Hash)
    (heq : s.hgetall jobId = h) (hwf : h.wff)
    (hst : Hash.get h "status" = some "completed") :
    (mark_collected jobId s).2 =
      .ok ("Job " ++ jobId ++ " marked as collected.") ∧
    (mark_collected jobId (mark_collected jobId s).1).2 =
      .ok ("Job " ++ jobId ++ " marked as collected.") ∧
    Hash.get ((mark_collected jobId s).1.hgetall jobId) "collected"
      = some "True" ∧
    (∀ f, f ≠ "collected" →
      Hash.get ((mark_collected jobId s).1.hgetall jobId) f = Hash.get h f) ∧
    Hash.get
      ((mark_collected jobId (mark_collected jobId s).1).1.hgetall jobId)
      "collected" = some "True" ∧
    (∀ f, f ≠ "collected" →
      Hash.get
        ((mark_collected jobId (mark_collected jobId s).1).1.hgetall jobId) f
        = Hash.get h f) := by
  have e1 := mark_collected_completed s jobId h heq hst
  have hrec1 : (mark_collected jobId s).1.hgetall jobId
      = Hash.merge h (Hash.set h "collected" "True") := by
    rw [e1, Store.hgetall_hset_self, heq]
  have hview1 := Hash.get_merge_set h hwf "collected"
  have hwf1 : (Hash.merge h (Hash.set h "collected" "True")).wff :=
    Hash.wff_merge h _ hwf
  have hst1m : Hash.get (Hash.merge h (Hash.set h "collected" "True"))
      "status" = some "completed" := by
    rw [hview1 "status" "True", if_neg (by decide : ("status" : String) ≠ "collected"), hst]
  have e2 := mark_collected_completed (mark_collected jobId s).1 jobId _
    hrec1 hst1m
  have hrec2 :
      (mark_collected jobId (mark_collected jobId s).1).1.hgetall jobId
        = Hash.merge (Hash.merge h (Hash.set h "collected" "True"))
            (Hash.set (Hash.merge h (Hash.set h "collected" "True"))
              "collected" "True") := by
    rw [e2, Store.hgetall_hset_self, hrec1]
  have hview2 :=
    Hash.get_merge_set (Hash.merge h (Hash.set h "collected" "True")) hwf1
      "collected"
  refine ⟨by rw [e1], by rw [e2], ?_, ?_, ?_, ?_⟩
  · rw [hrec1, hview1 "collected" "True"]
    simp
  · intro f hf
    rw [hrec1, hview1 f "True", if_neg hf]
  · rw [hrec2, hview2 "collected" "True"]
    simp
  · intro f hf
    rw [hrec2, hview2 f "True", if_neg hf, hview1 f "True", if_neg hf]

/-- C9 witness: both collect calls on a concrete completed job succeed
identically and leave everything but `collected` alone. -/
theorem C9_witness :
    Hash.get (exCompleted.hgetall "j2") "status" = some "completed" ∧
    (mark_collected "j2" exCompleted).2 =
      .ok ("Job " ++ "j2" ++ " marked as collected.") ∧
    (mark_collected "j2" (mark_collected "j2" exCompleted).1).2 =
      .ok ("Job " ++ "j2" ++ " marked as collected.") := by
  have h := C9_mark_collected_idempotent exCompleted "j2"
    (exCompleted.hgetall "j2") rfl (by decide) (by decide)
  exact ⟨by decide, h.1, h.2.1⟩

/-! ### C7 -/

/-- The record written back by `upload_result` on a job carrying a claim
timestamp: result reference, completion status and timestamp, collected
reset, and the computed elapsed seconds. -/
def resultRecord (h : Hash) (rn now : String) (d : Int) : Hash :=
  Hash.set
    (Hash.set
      (Hash.set (Hash.set (Hash.set h "result_filename" rn)
        "status" "completed") "timestamp_completed" now)
      "collected" "False")
    "elapsed_seconds" (toString d)

theorem upload_result_claimed_eq (s : Store) (jobId rn now : String)
    (h : Hash) (tcs : String) (t1 t2 : Nat)
    (heq : s.hgetall jobId = h)
    (htc : Hash.get h "timestamp_claimed" = some tcs)
    (hp1 : parseTime tcs = some t1) (hp2 : parseTime now = some t2) :
    upload_result jobId rn now s =
      (s.hset jobId (resultRecord h rn now ((t2 : Int) - (t1 : Int))),
       .ok rn) := by
  have hne : h ≠ [] := Hash.ne_nil_of_get h htc
  have htcs : tcs ≠ "" := by
    intro he
    subst he
    simp [parseTime, decNat] at hp1
  have h4tc : Hash.get
      (Hash.set (Hash.set (Hash.set (Hash.set h "result_filename" rn)
        "status" "completed") "timestamp_completed" now)
        "collected" "False") "timestamp_claimed" = some tcs := by
    rw [Hash.get_set_ne _ (by decide), Hash.get_set_ne _ (by decide),
      Hash.get_set_ne _ (by decide), Hash.get_set_ne _ (by decide), htc]
  simp only [upload_result, heq, if_neg hne, h4tc]
  simp [truthy, htcs, calc_elapsed, hp1, hp2, resultRecord]

/-- Field view of `resultRecord`. -/
theorem get_resultRecord (h : Hash) (rn now : String) (d : Int) :
    Hash.get (resultRecord h rn now d) "status" = some "completed" ∧
    Hash.get (resultRecord h rn now d) "result_filename" = some rn ∧
    Hash.get (resultRecord h rn now d) "timestamp_completed" = some now ∧
    Hash.get (resultRecord h rn now d) "elapsed_seconds"
      = some (toString d) := by
  unfold resultRecord
  refine ⟨?_, ?_, ?_, ?_⟩
  · rw [Hash.get_set_ne _ (by decide), Hash.get_set_ne _ (by decide),
      Hash.get_set_ne _ (by decide), Hash.get_set_self]
  · rw [Hash.get_set_ne _ (by decide), Hash.get_set_ne _ (by decide),
      Hash.get_set_ne _ (by decide), Hash.get_set_ne _ (by decide),
      Hash.get_set_self]
  · rw [Hash.get_set_ne _ (by decide), Hash.get_set_ne _ (by decide),
      Hash.get_set_self]
  · rw [Hash.get_set_self]

theorem wff_resultRecord (h : Hash) (rn now : String) (d : Int)
    (hwf : h.wff) : (resultRecord h rn now d).wff := by
  unfold resultRecord
  exact Hash.wff_set _ _ _ (Hash.wff_set _ _ _ (Hash.wff_set _ _ _
    (Hash.wff_set _ _ _ (Hash.wff_set _ _ _ hwf))))

/-- C7: `upload_result` on a job whose status is `claimed` (so a claim
timestamp `t1` is recorded) succeeds, and the stored record reads
status `completed`, the result reference, the completion timestamp `t2`,
and an elapsed duration equal to `t2 - t1`, which is non-negative under a
monotone clock. -/
theorem C7_upload_result_elapsed (s : Store) (jobId rn now : String)
    (h : Hash) (tcs : String) (t1 t2 : Nat)
    (heq : s.hgetall jobId = h) (hwf : h.wff)
    (hst : Hash.get h "status" = some "claimed")
    (htc : Hash.get h "timestamp_claimed" = some tcs)
    (hp1 : parseTime tcs = some t1) (hp2 : parseTime now = some t2)
    (hmono : t1 ≤ t2) :
    (upload_result jobId rn now s).2 = .ok rn ∧
    Hash.get ((upload_result jobId rn now s).1.hgetall jobId) "status"
      = some "completed" ∧
    Hash.get ((upload_result jobId rn now s).1.hgetall jobId)
      "result_filename" = some rn ∧
    Hash.get ((upload_result jobId rn now s).1.hgetall jobId)
      "timestamp_completed" = some now ∧
    Hash.get ((upload_result jobId rn now s).1.hgetall jobId)
      "elapsed_seconds" = some (toString ((t2 : Int) - (t1 : Int))) ∧
    0 ≤ (t2 : Int) - (t1 : Int) := by
  have e := upload_result_claimed_eq s jobId rn now h tcs t1 t2 heq htc
    hp1 hp2
  have hrec : (upload_result jobId rn now s).1.hgetall jobId
      = Hash.merge h (resultRecord h rn now ((t2 : Int) - (t1 : Int))) := by
    rw [e, Store.hgetall_hset_self, heq]
  have hwfr := wff_resultRecord h rn now ((t2 : Int) - (t1 : Int)) hwf
  have hview := Hash.get_merge h _ hwfr
  obtain ⟨g1, g2, g3, g4⟩ :=
    get_resultRecord h rn now ((t2 : Int) - (t1 : Int))
  refine ⟨by rw [e], ?_, ?_, ?_, ?_, ?_⟩
  · rw [hrec, hview "status", g1]
  · rw [hrec, hview "result_filename", g2]
  · rw [hrec, hview "timestamp_completed", g3]
  · rw [hrec, hview "elapsed_seconds", g4]
  · omega

/-- C7 witness: completing a concrete claimed job (claimed at 12,
completed at 20) records elapsed 8. -/
theorem C7_witness :
    (upload_result "j3" "out.txt" "20" exClaimed).2 = .ok "out.txt" ∧
    Hash.get ((upload_result "j3" "out.txt" "20" exClaimed).1.hgetall "j3")
      "elapsed_seconds" = some (toString ((20 : Int) - (12 : Int))) := by
  have h := C7_upload_result_elapsed exClaimed "j3" "out.txt" "20"
    (exClaimed.hgetall "j3") "12" 12 20 rfl (by decide) (by decide)
    (by decide) (by decide) (by decide) (by decide)
  exact ⟨h.1, h.2.2.2.2.1⟩

/-! ### C2 -/

/-- The three-field record `claim_job` fabricates for a popped id whose
job record does not exist. -/
def phantomRecord (ip now : String) : Hash :=
  [("status", "claimed"), ("timestamp_claimed", now), ("claimed_by", ip)]

/-- C2 counterexample: with `ghost` at the head of queue 0 (no record) and
a real queued job behind it in queue 1, `claim_job` does NOT treat the pop
as empty and does NOT try the next candidate: it persists and returns a
fabricated record for `ghost`, leaving the real job unclaimed in queue 1. -/
theorem C2_counterexample :
    ghostStore.hgetall "ghost" = [] ∧
    (claim_job "10.0.0.9" "77" ghostStore).2
      = some (phantomRecord "10.0.0.9" "77") ∧
    (claim_job "10.0.0.9" "77" ghostStore).1.hgetall "ghost"
      = phantomRecord "10.0.0.9" "77" ∧
    (claim_job "10.0.0.9" "77" ghostStore).1.lrange (qn "1") = ["real1"] ∧
    Hash.get ((claim_job "10.0.0.9" "77" ghostStore).1.hgetall "real1")
      "status" = some "queued" := by
  decide

/-- C2 (amended): when the popped id has no Job Store record, `claim_job`
does not raise and does not pop a further candidate; it persists the
fabricated three-field `claimed` record under that id and returns it. -/
theorem C2_claim_missing_record (s s₁ : Store) (ip now jobId : String)
    (hpop : popLoop ["0", "1", "2"] s = (some jobId, s₁))
    (hmissing : s₁.hgetall jobId = []) :
    claim_job ip now s =
      (s₁.hset jobId (phantomRecord ip now),
       some (phantomRecord ip now)) := by
  simp only [claim_job, hpop, hmissing]
  simp [phantomRecord, Hash.set, updateA]

/-- C2 witness: a queue holding only an id with no record. -/
theorem C2_witness :
    claim_job "1.1.1.1" "9" (⟨[], [(qn "0", ["g"])]⟩ : Store) =
      ((Store.setList ⟨[], [(qn "0", ["g"])]⟩ (qn "0") []).hset "g"
        (phantomRecord "1.1.1.1" "9"),
       some (phantomRecord "1.1.1.1" "9")) :=
  C2_claim_missing_record _ _ "1.1.1.1" "9" "g" (by decide) (by decide)

/-! ### C5 -/

/-- Whether a stored heartbeat value parses as a *naive* timestamp (the
kind `prune_dead_workers` can subtract from its naive `now`). -/
def naiveOk (v : Option String) : Bool :=
  match fromisoformat v with
  | .ok d => !d.aware
  | .error _ => false

/-- Every nonempty worker record carries a parseable naive heartbeat. -/
def PruneSafe (s : Store) : Prop :=
  ∀ kh ∈ s.hashes, isWorkerKey kh.1 = true → kh.2 ≠ [] →
    naiveOk (Hash.get kh.2 "last_heartbeat") = true

instance (s : Store) : Decidable (PruneSafe s) :=
  inferInstanceAs (Decidable (∀ kh ∈ s.hashes, _ → _ → _))

theorem mem_of_lookupA {α : Type} {l : List (String × α)} {k : String}
    {x : α} (h : lookupA l k = some x) : (k, x) ∈ l := by
  induction l with
  | nil => simp [lookupA] at h
  | cons hd t ih =>
    obtain ⟨b, y⟩ := hd
    by_cases hb : b = k
    · subst hb
      simp [lookupA] at h
      subst h
      exact List.mem_cons_self _ _
    · simp [lookupA, hb] at h
      exact List.mem_cons_of_mem _ (ih h)

theorem PruneSafe_del (s : Store) (k : String) (hp : PruneSafe s) :
    PruneSafe (s.del k) := by
  intro kh hmem hwk hne
  exact hp kh (List.mem_of_mem_filter hmem) hwk hne

theorem pruneGo_no_raise (tmo : Int) (nowSec : Nat) (ks : List String) :
    ∀ (s : Store), (∀ k ∈ ks, isWorkerKey k = true) → PruneSafe s →
      (pruneGo tmo nowSec ks s).2 = none := by
  induction ks with
  | nil => intro s _ _; rfl
  | cons k t ih =>
    intro s hks hp
    have hkst : ∀ x ∈ t, isWorkerKey x = true :=
      fun x hx => hks x (List.mem_cons_of_mem k hx)
    have hwk : isWorkerKey k = true := hks k (List.mem_cons_self k t)
    simp only [pruneGo]
    by_cases hw : s.hgetall k = []
    · rw [if_pos hw]
      exact ih (s.del k) hkst (PruneSafe_del s k hp)
    · rw [if_neg hw]
      have hlook : lookupA s.hashes k = some (s.hgetall k) := by
        unfold Store.hgetall at hw ⊢
        cases hl : lookupA s.hashes k with
        | none => rw [hl] at hw; simp at hw
        | some h => simp
      have hok := hp (k, s.hgetall k) (mem_of_lookupA hlook) hwk hw
      unfold naiveOk at hok
      cases hfi : fromisoformat (Hash.get (s.hgetall k) "last_heartbeat")
        with
      | error e => rw [hfi] at hok; simp at hok
      | ok d =>
        rw [hfi] at hok
        simp at hok
        have hsub : dtSub ⟨false, nowSec⟩ d
            = .ok ((nowSec : Int) - (d.sec : Int)) := by
          unfold dtSub
          rw [if_pos (by simp [hok])]
        simp only [hsub]
        by_cases hel : (nowSec : Int) - (d.sec : Int) > tmo
        · rw [if_pos hel]
          exact ih (s.del k) hkst (PruneSafe_del s k hp)
        · rw [if_neg hel]
          exact ih s hkst hp

/-- C5 counterexample: a registry holding one worker record whose
`last_heartbeat` field is missing makes `prune_dead_workers` raise
`TypeError` to its caller instead of logging and continuing. -/
theorem C5_counterexample :
    (prune_dead_workers 10 100
        (⟨[("worker:w1", [("worker_id", "w1")])], []⟩ : Store)).2
      = some "TypeError: fromisoformat argument must be str" := by
  decide

/-- C5 (amended): the prune scan completes without raising for every
registry in which each nonempty worker record carries a present,
parseable, naive `last_heartbeat`; a missing or unparseable field makes
the scan raise to its caller. -/
theorem C5_prune_no_raise_when_parseable (tmo : Int) (nowSec : Nat)
    (s : Store) (hp : PruneSafe s) :
    (prune_dead_workers tmo nowSec s).2 = none :=
  pruneGo_no_raise tmo nowSec (workerKeys s) s
    (fun _ hk => (List.mem_filter.mp hk).2) hp

/-- C5 witness: pruning a registry with one freshly registered (naive
timestamp) worker completes without raising. -/
theorem C5_witness :
    PruneSafe (register_worker "w1" "pi1" "10.0.0.2" "linux" "arm" "6.1"
      "default" 0 (⟨[], []⟩ : Store)) ∧
    (prune_dead_workers 10 100
      (register_worker "w1" "pi1" "10.0.0.2" "linux" "arm" "6.1"
        "default" 0 (⟨[], []⟩ : Store))).2 = none :=
  ⟨by decide,
   C5_prune_no_raise_when_parseable 10 100 _ (by decide)⟩

/-! ### C6 -/

/-- A worker that registered at (naive) time 0 and never heartbeated. -/
def regOnlyStore : Store :=
  register_worker "w9" "pi9" "10.0.0.3" "linux" "arm" "6.1" "default" 0
    (⟨[], []⟩ : Store)

/-- The raised exception of a scan result, if any. -/
def raisedError {α : Type} (e : Except String α) : Option String :=
  match e with
  | .error m => some m
  | .ok _ => none

/-- C6: evaluation at the failing input.  A worker registers at naive time
0 and sends no heartbeat; at aware time 100 (far beyond the 20-second
cutoff) the `get_workers` scan does not exclude-and-delete it: the
aware-minus-naive subtraction raises `TypeError` and the stale record
survives.  (The prune cycle, whose clock is naive like the registration
timestamp, does delete it.) -/
theorem C6_evaluation :
    raisedError (get_workers 100 regOnlyStore).2
      = some
          "TypeError: cannot subtract offset-naive and offset-aware datetimes"
      ∧
    (get_workers 100 regOnlyStore).1.hgetall "worker:w9" ≠ [] ∧
    (prune_dead_workers 10 100 regOnlyStore).2 = none ∧
    (prune_dead_workers 10 100 regOnlyStore).1.hgetall "worker:w9" = [] := by
  decide

/-! ### C10 -/

theorem foldDel_count (ks : List String) (a : Store × Nat) :
    (ks.foldl (fun (a : Store × Nat) k => (a.1.del k, a.2 + 1)) a).2
      = a.2 + ks.length := by
  induction ks generalizing a with
  | nil => simp
  | cons k t ih =>
    simp [List.foldl_cons, ih]
    omega

theorem foldDel_store (ks : List String) (a : Store × Nat) :
    (ks.foldl (fun (a : Store × Nat) k => (a.1.del k, a.2 + 1)) a).1
      = ks.foldl Store.del a.1 := by
  induction ks generalizing a with
  | nil => rfl
  | cons k t ih => simp [List.foldl_cons, ih]

theorem hgetall_del_preserve (s : Store) (k q : String)
    (h : s.hgetall q = []) : (s.del k).hgetall q = [] := by
  by_cases hq : q = k
  · subst hq
    exact Store.hgetall_del_self s _
  · rw [Store.hgetall_del_ne s hq]
    exact h

theorem lrange_del_preserve (s : Store) (k q : String)
    (h : s.lrange q = []) : (s.del k).lrange q = [] := by
  by_cases hq : q = k
  · subst hq
    simp [Store.del, Store.lrange, lookupA_filterOut_self]
  · rw [Store.lrange_del_ne s hq]
    exact h

theorem hgetall_foldDel_preserve (ks : List String) (s : Store) (q : String)
    (h : s.hgetall q = []) : (ks.foldl Store.del s).hgetall q = [] := by
  induction ks generalizing s with
  | nil => exact h
  | cons k t ih => exact ih (s.del k) (hgetall_del_preserve s k q h)

theorem lrange_foldDel_preserve (ks : List String) (s : Store) (q : String)
    (h : s.lrange q = []) : (ks.foldl Store.del s).lrange q = [] := by
  induction ks generalizing s with
  | nil => exact h
  | cons k t ih => exact ih (s.del k) (lrange_del_preserve s k q h)

theorem hgetall_foldDel_of_mem (ks : List String) (s : Store) (q : String)
    (h : q ∈ ks) : (ks.foldl Store.del s).hgetall q = [] := by
  induction ks generalizing s with
  | nil => simp at h
  | cons k t ih =>
    by_cases hq : q = k
    · subst hq
      exact hgetall_foldDel_preserve t (s.del q) q
        (Store.hgetall_del_self s q)
    · exact ih (s.del k) (by
        rcases List.mem_cons.mp h with h | h
        · exact absurd h hq
        · exact h)

theorem lrange_foldDel_of_mem (ks : List String) (s : Store) (q : String)
    (h : q ∈ ks) : (ks.foldl Store.del s).lrange q = [] := by
  induction ks generalizing s with
  | nil => simp at h
  | cons k t ih =>
    by_cases hq : q = k
    · subst hq
      exact lrange_foldDel_preserve t (s.del q) q
        (by simp [Store.del, Store.lrange, lookupA_filterOut_self])
    · exact ih (s.del k) (by
        rcases List.mem_cons.mp h with h | h
        · exact absurd h hq
        · exact h)

/-- C10: `purge_all` deletes every key in the record store — job records,
priority queues, and worker records alike — and the `jobs_deleted` count it
returns is the number of all live keys, not the number of job records, so
with any registered worker or nonempty queue present it strictly exceeds
the number of job records; the worker registry is emptied as a side
effect. -/
theorem C10_purge_all_counts_keys (s : Store) :
    (purge_all s).2 = s.hashes.length +
      (s.lists.filter (fun kv => !kv.2.isEmpty)).length ∧
    (∀ k, (purge_all s).1.hgetall k = []) ∧
    (∀ q, (purge_all s).1.lrange q = []) ∧
    (((∃ kh ∈ s.hashes, isWorkerKey kh.1 = true) ∨
        (∃ q ∈ queueNames, s.lrange q ≠ [])) →
      (s.hashes.filter (fun kh => !isWorkerKey kh.1)).length
        < (purge_all s).2) := by
  have hcount : (purge_all s).2 = s.liveKeys.length := by
    unfold purge_all
    simp [foldDel_count]
  have hstore : (purge_all s).1
      = queueNames.foldl Store.del (s.liveKeys.foldl Store.del s) := by
    unfold purge_all
    simp [foldDel_store]
  have hlivelen : s.liveKeys.length = s.hashes.length +
      (s.lists.filter (fun kv => !kv.2.isEmpty)).length := by
    unfold Store.liveKeys
    simp
  refine ⟨by rw [hcount, hlivelen], ?_, ?_, ?_⟩
  · intro k
    rw [hstore]
    by_cases hk : k ∈ s.hashes.map Prod.fst
    · have : k ∈ s.liveKeys := by
        unfold Store.liveKeys
        exact List.mem_append_left _ hk
      exact hgetall_foldDel_preserve queueNames _ k
        (hgetall_foldDel_of_mem s.liveKeys s k this)
    · have hbase : s.hgetall k = [] := by
        unfold Store.hgetall
        rw [lookupA_eq_none_of_not_mem s.hashes hk]
        rfl
      exact hgetall_foldDel_preserve queueNames _ k
        (hgetall_foldDel_preserve s.liveKeys s k hbase)
  · intro q
    rw [hstore]
    cases hl : lookupA s.lists q with
    | none =>
      have hbase : s.lrange q = [] := by
        unfold Store.lrange
        rw [hl]
        rfl
      exact lrange_foldDel_preserve queueNames _ q
        (lrange_foldDel_preserve s.liveKeys s q hbase)
    | some l =>
      by_cases hle : l = []
      · subst hle
        have hbase : s.lrange q = [] := by
          unfold Store.lrange
          rw [hl]
          rfl
        exact lrange_foldDel_preserve queueNames _ q
          (lrange_foldDel_preserve s.liveKeys s q hbase)
      · have hq : q ∈ s.liveKeys := by
          unfold Store.liveKeys
          refine List.mem_append_right _ ?_
          refine List.mem_map.mpr ⟨(q, l), ?_, rfl⟩
          refine List.mem_filter.mpr ⟨mem_of_lookupA hl, by simpa using hle⟩
        exact lrange_foldDel_preserve queueNames _ q
          (lrange_foldDel_of_mem s.liveKeys s q hq)
  · intro hpresent
    rw [hcount, hlivelen]
    have hjobs : (s.hashes.filter (fun kh => !isWorkerKey kh.1)).length
        ≤ s.hashes.length := List.length_filter_le _ _
    rcases hpresent with ⟨kh, hmem, hwk⟩ | ⟨q, hq, hne⟩
    · have hstrict : (s.hashes.filter (fun kh => !isWorkerKey kh.1)).length
          < s.hashes.length := by
        refine List.length_filter_lt_length_iff_exists.mpr ?_
        exact ⟨kh, hmem, by simp [hwk]⟩
      omega
    · have hfl : 0 < (s.lists.filter (fun kv => !kv.2.isEmpty)).length := by
        cases hl : lookupA s.lists q with
        | none =>
          exfalso
          apply hne
          unfold Store.lrange
          rw [hl]
          rfl
        | some l =>
          have hlne : l ≠ [] := by
            intro hc
            apply hne
            unfold Store.lrange
            rw [hl, hc]
            rfl
          have : (q, l) ∈ s.lists.filter (fun kv => !kv.2.isEmpty) :=
            List.mem_filter.mpr ⟨mem_of_lookupA hl, by simpa using hlne⟩
          exact List.length_pos.mpr (fun hc => by simp [hc] at this)
      omega

/-- A store with one job record, one registered worker, and one queued id:
`purge_all` reports 3 deletions though only one job record exists, empties
the registry, and the count strictly exceeds the job-record count. -/
theorem C10_witness :
    (purge_all (⟨[("j1", uploadRecord "j1" "in.zip" "1" "10"),
                  ("worker:w1", [("worker_id", "w1")])],
                 [(qn "1", ["j1"])]⟩ : Store)).2 = 3 ∧
    ((purge_all (⟨[("j1", uploadRecord "j1" "in.zip" "1" "10"),
                   ("worker:w1", [("worker_id", "w1")])],
                  [(qn "1", ["j1"])]⟩ : Store)).1.hgetall "worker:w1"
      = []) ∧
    ((⟨[("j1", uploadRecord "j1" "in.zip" "1" "10"),
        ("worker:w1", [("worker_id", "w1")])],
       [(qn "1", ["j1"])]⟩ : Store).hashes.filter
        (fun kh => !isWorkerKey kh.1)).length
      < (purge_all (⟨[("j1", uploadRecord "j1" "in.zip" "1" "10"),
                      ("worker:w1", [("worker_id", "w1")])],
                     [(qn "1", ["j1"])]⟩ : Store)).2 := by
  have h := C10_purge_all_counts_keys
    (⟨[("j1", uploadRecord "j1" "in.zip" "1" "10"),
       ("worker:w1", [("worker_id", "w1")])],
      [(qn "1", ["j1"])]⟩ : Store)
  refine ⟨?_, h.2.1 "worker:w1", ?_⟩
  · rw [h.1]
    decide
  · exact h.2.2.2 (Or.inl ⟨("worker:w1", [("worker_id", "w1")]),
      by decide, by decide⟩)

/-! ### C3 -/

/-- Modelled from the spec's words, for refinement comparison only:
`dequeueHighest()` removes and returns the head of the lowest-numbered
non-empty sequence, checked in order 0, then 1, then 2; `none` when all are
empty.  Returns the queue key, the head, and the remaining sequence. -/
def dequeueHighestSpec (s : Store) : Option (String × String × List String) :=
  match s.lrange (qn "0") with
  | x :: xs => some (qn "0", x, xs)
  | [] =>
    match s.lrange (qn "1") with
    | x :: xs => some (qn "1", x, xs)
    | [] =>
      match s.lrange (qn "2") with
      | x :: xs => some (qn "2", x, xs)
      | [] => none

/-- Well-formedness of queue contents, true of every reachable state: each
queued id is a nonempty string (ids are uuid4) naming a well-formed record
whose `id` field equals the id (as written by `upload`). -/
def wfQueues (s : Store) : Prop :=
  ∀ q ∈ queueNames, ∀ k ∈ s.lrange q,
    k ≠ "" ∧ Hash.get (s.hgetall k) "id" = some k ∧ (s.hgetall k).wff

instance (s : Store) : Decidable (wfQueues s) :=
  inferInstanceAs (Decidable (∀ q ∈ queueNames, ∀ k ∈ s.lrange q, _ ∧ _ ∧ _))

/-- The field updates `claim_job` applies to the loaded record. -/
def claimedUpdate (h : Hash) (ip now : String) : Hash :=
  Hash.set (Hash.set (Hash.set h "status" "claimed")
    "timestamp_claimed" now) "claimed_by" ip

/-- Drain the queues: repeatedly call `claim_job`, collecting the `id`
field of each returned record, stopping on "no jobs" or when the fuel runs
out. -/
def claimAll : Nat → String → String → Store → List String
  | 0, _, _, _ => []
  | Nat.succ n, ip, now, s =>
    match claim_job ip now s with
    | (_, none) => []
    | (s₁, some h) => (Hash.get h "id").getD "" :: claimAll n ip now s₁

theorem popLoop_spec (s : Store)
    (hne : ∀ q ∈ queueNames, "" ∉ s.lrange q) :
    popLoop ["0", "1", "2"] s =
      match dequeueHighestSpec s with
      | none => (none, s)
      | some (q, x, xs) => (some x, s.setList q xs) := by
  cases h0 : s.lrange (qn "0") with
  | cons x xs =>
    have hx : ¬x = "" := by
      intro he
      exact hne (qn "0") (by simp [queueNames])
        (by rw [h0, he]; exact List.mem_cons_self _ _)
    simp only [popLoop, Store.lpop, h0, dequeueHighestSpec, if_neg hx]
  | nil =>
    cases h1 : s.lrange (qn "1") with
    | cons x xs =>
      have hx : ¬x = "" := by
        intro he
        exact hne (qn "1") (by simp [queueNames])
          (by rw [h1, he]; exact List.mem_cons_self _ _)
      simp only [popLoop, Store.lpop, h0, h1, dequeueHighestSpec, if_neg hx]
    | nil =>
      cases h2 : s.lrange (qn "2") with
      | cons x xs =>
        have hx : ¬x = "" := by
          intro he
          exact hne (qn "2") (by simp [queueNames])
            (by rw [h2, he]; exact List.mem_cons_self _ _)
        simp only [popLoop, Store.lpop, h0, h1, h2, dequeueHighestSpec,
          if_neg hx]
      | nil =>
        simp only [popLoop, Store.lpop, h0, h1, h2, dequeueHighestSpec]

theorem claim_job_eq (s : Store) (ip now : String)
    (hne : ∀ q ∈ queueNames, "" ∉ s.lrange q) :
    claim_job ip now s =
      match dequeueHighestSpec s with
      | none => (s, none)
      | some (q, x, xs) =>
        ((s.setList q xs).hset x
           (claimedUpdate ((s.setList q xs).hgetall x) ip now),
         some (claimedUpdate ((s.setList q xs).hgetall x) ip now)) := by
  unfold claim_job
  rw [popLoop_spec s hne]
  cases hd : dequeueHighestSpec s with
  | none => rfl
  | some v =>
    obtain ⟨q, x, xs⟩ := v
    rfl

theorem wfQueues_empty_not_mem (s : Store) (hwf : wfQueues s) :
    ∀ q ∈ queueNames, "" ∉ s.lrange q := by
  intro q hq hmem
  exact ((hwf q hq "" hmem).1) rfl

/-- The key step: with well-formed queues, one `claim_job` call pops the
head `x` of the lowest-numbered non-empty queue, returns a record whose
`id` field is `x`, leaves the other queues untouched, and preserves
well-formedness. -/
theorem claim_job_step (s : Store) (ip now q x : String) (xs : List String)
    (hwf : wfQueues s) (hd : dequeueHighestSpec s = some (q, x, xs)) :
    (claim_job ip now s).2.map (fun h => Hash.get h "id")
        = some (some x) ∧
    (claim_job ip now s).1.lrange q = xs ∧
    (∀ r ∈ queueNames, r ≠ q → (claim_job ip now s).1.lrange r
        = s.lrange r) ∧
    wfQueues (claim_job ip now s).1 := by
  have hqmem : q ∈ queueNames ∧ s.lrange q = x :: xs := by
    unfold dequeueHighestSpec at hd
    cases h0 : s.lrange (qn "0") with
    | cons a t =>
      rw [h0] at hd
      simp at hd
      obtain ⟨rfl, rfl, rfl⟩ := hd
      exact ⟨by simp [queueNames], h0⟩
    | nil =>
      rw [h0] at hd
      cases h1 : s.lrange (qn "1") with
      | cons a t =>
        rw [h1] at hd
        simp at hd
        obtain ⟨rfl, rfl, rfl⟩ := hd
        exact ⟨by simp [queueNames], h1⟩
      | nil =>
        rw [h1] at hd
        cases h2 : s.lrange (qn "2") with
        | cons a t =>
          rw [h2] at hd
          simp at hd
          obtain ⟨rfl, rfl, rfl⟩ := hd
          exact ⟨by simp [queueNames], h2⟩
        | nil =>
          rw [h2] at hd
          simp at hd
  obtain ⟨hqmem, hqeq⟩ := hqmem
  have hxmem : x ∈ s.lrange q := by
    rw [hqeq]
    exact List.mem_cons_self _ _
  obtain ⟨hxne, hxid, hxwf⟩ := hwf q hqmem x hxmem
  have hE := claim_job_eq s ip now (wfQueues_empty_not_mem s hwf)
  rw [hd] at hE
  have hgx : (s.setList q xs).hgetall x = s.hgetall x :=
    Store.hgetall_setList s q xs x
  have hidup : Hash.get (claimedUpdate (s.hgetall x) ip now) "id"
      = some x := by
    unfold claimedUpdate
    rw [Hash.get_set_ne _ (by decide), Hash.get_set_ne _ (by decide),
      Hash.get_set_ne _ (by decide), hxid]
  refine ⟨?_, ?_, ?_, ?_⟩
  · rw [hE]
    simp [hgx, hidup]
  · rw [hE]
    show ((s.setList q xs).hset x _).lrange q = xs
    rw [Store.lrange_hset, Store.lrange_setList_self]
  · intro r hr hrq
    rw [hE]
    show ((s.setList q xs).hset x _).lrange r = s.lrange r
    rw [Store.lrange_hset, Store.lrange_setList_ne s hrq]
  · rw [hE]
    intro r hr k hk
    have hklr : k ∈ s.lrange r := by
      show k ∈ s.lrange r
      by_cases hrq : r = q
      · subst hrq
        rw [Store.lrange_hset, Store.lrange_setList_self] at hk
        rw [hqeq]
        exact List.mem_cons_of_mem _ hk
      · rw [Store.lrange_hset, Store.lrange_setList_ne s hrq] at hk
        exact hk
    obtain ⟨hkne, hkid, hkwf⟩ := hwf r hr k hklr
    refine ⟨hkne, ?_, ?_⟩
    · by_cases hkx : k = x
      · subst hkx
        rw [Store.hgetall_hset_self, hgx,
          Hash.get_merge _ _ ?wfm "id"]
        case wfm =>
          unfold claimedUpdate
          exact Hash.wff_set _ _ _ (Hash.wff_set _ _ _
            (Hash.wff_set _ _ _ hxwf))
        rw [hidup]
      · rw [Store.hgetall_hset_ne _ hkx, Store.hgetall_setList]
        exact hkid
    · by_cases hkx : k = x
      · subst hkx
        rw [Store.hgetall_hset_self, hgx]
        exact Hash.wff_merge _ _ hkwf
      · rw [Store.hgetall_hset_ne _ hkx, Store.hgetall_setList]
        exact hkwf

/-- Draining well-formed queues yields exactly queue 0, then queue 1, then
queue 2, each in order. -/
theorem claimAll_order (n : Nat) :
    ∀ (s : Store) (ip now : String), wfQueues s →
      (s.lrange (qn "0")).length + (s.lrange (qn "1")).length +
        (s.lrange (qn "2")).length = n →
      claimAll n ip now s =
        s.lrange (qn "0") ++ s.lrange (qn "1") ++ s.lrange (qn "2") := by
  induction n with
  | zero =>
    intro s ip now _ hlen
    have h0 : s.lrange (qn "0") = [] :=
      List.length_eq_zero.mp (by omega)
    have h1 : s.lrange (qn "1") = [] :=
      List.length_eq_zero.mp (by omega)
    have h2 : s.lrange (qn "2") = [] :=
      List.length_eq_zero.mp (by omega)
    rw [h0, h1, h2]
    rfl
  | succ n ih =>
    intro s ip now hwf hlen
    have hE := claim_job_eq s ip now (wfQueues_empty_not_mem s hwf)
    cases hd : dequeueHighestSpec s with
    | none =>
      exfalso
      unfold dequeueHighestSpec at hd
      cases h0 : s.lrange (qn "0") with
      | cons a t => rw [h0] at hd; simp at hd
      | nil =>
        rw [h0] at hd
        cases h1 : s.lrange (qn "1") with
        | cons a t => rw [h1] at hd; simp at hd
        | nil =>
          rw [h1] at hd
          cases h2 : s.lrange (qn "2") with
          | cons a t => rw [h2] at hd; simp at hd
          | nil =>
            rw [h0, h1, h2] at hlen
            simp at hlen
    | some v =>
      obtain ⟨q, x, xs⟩ := v
      obtain ⟨hid, hpopped, hothers, hwf₁⟩ :=
        claim_job_step s ip now q x xs hwf hd
      obtain ⟨s₁, h₁, hcj⟩ : ∃ s₁ h₁, claim_job ip now s = (s₁, some h₁) := by
        cases hc : claim_job ip now s with
        | mk a b =>
          cases b with
          | none => rw [hc] at hid; simp at hid
          | some h₁ => exact ⟨a, h₁, rfl⟩
      have hidx : Hash.get h₁ "id" = some x := by
        rw [hcj] at hid
        simpa using hid
      have hstep : claimAll (n + 1) ip now s
          = x :: claimAll n ip now s₁ := by
        show (match claim_job ip now s with
              | (_, none) => []
              | (s₁, some h) =>
                (Hash.get h "id").getD "" :: claimAll n ip now s₁)
            = x :: claimAll n ip now s₁
        rw [hcj]
        simp [hidx]
      rw [hcj] at hpopped hothers hwf₁
      -- identify which queue was popped and recompute the lengths
      unfold dequeueHighestSpec at hd
      cases h0 : s.lrange (qn "0") with
      | cons a t =>
        rw [h0] at hd
        simp at hd
        obtain ⟨rfl, rfl, rfl⟩ := hd
        have e0 : s₁.lrange (qn "0") = t := hpopped
        have e1 : s₁.lrange (qn "1") = s.lrange (qn "1") :=
          hothers (qn "1") (by simp [queueNames]) (by decide)
        have e2 : s₁.lrange (qn "2") = s.lrange (qn "2") :=
          hothers (qn "2") (by simp [queueNames]) (by decide)
        have hrec := ih s₁ ip now hwf₁ (by
          rw [e0, e1, e2]
          rw [h0] at hlen
          simp at hlen
          omega)
        rw [hstep, hrec, e0, e1, e2]
        simp
      | nil =>
        rw [h0] at hd
        cases h1 : s.lrange (qn "1") with
        | cons a t =>
          rw [h1] at hd
          simp at hd
          obtain ⟨rfl, rfl, rfl⟩ := hd
          have e1 : s₁.lrange (qn "1") = t := hpopped
          have e0 : s₁.lrange (qn "0") = s.lrange (qn "0") :=
            hothers (qn "0") (by simp [queueNames]) (by decide)
          have e2 : s₁.lrange (qn "2") = s.lrange (qn "2") :=
            hothers (qn "2") (by simp [queueNames]) (by decide)
          have hrec := ih s₁ ip now hwf₁ (by
            rw [e0, e1, e2, h0]
            rw [h0, h1] at hlen
            simp at hlen ⊢
            omega)
          rw [hstep, hrec, e0, h0, e1, e2]
          simp
        | nil =>
          rw [h1] at hd
          cases h2 : s.lrange (qn "2") with
          | cons a t =>
            rw [h2] at hd
            simp at hd
            obtain ⟨rfl, rfl, rfl⟩ := hd
            have e2 : s₁.lrange (qn "2") = t := hpopped
            have e0 : s₁.lrange (qn "0") = s.lrange (qn "0") :=
              hothers (qn "0") (by simp [queueNames]) (by decide)
            have e1 : s₁.lrange (qn "1") = s.lrange (qn "1") :=
              hothers (qn "1") (by simp [queueNames]) (by decide)
            have hrec := ih s₁ ip now hwf₁ (by
              rw [e0, e1, e2, h0, h1]
              rw [h0, h1, h2] at hlen
              simp at hlen ⊢
              omega)
            rw [hstep, hrec, e0, h0, e1, h1, e2]
            simp
          | nil => rw [h2] at hd; simp at hd

/-- C3: `claim_job` removes and returns the head of the lowest-numbered
non-empty queue (checked 0, then 1, then 2, matching `dequeueHighestSpec`),
leaving the other queues untouched; consequently draining the queues claims
every priority-0 job before every priority-1 job before every priority-2
job, and within one priority level in exactly enqueue (FIFO) order. -/
theorem C3_claim_priority_fifo (s : Store) (ip now : String)
    (hwf : wfQueues s) :
    (match dequeueHighestSpec s with
     | none => claim_job ip now s = (s, none)
     | some (q, x, xs) =>
       (claim_job ip now s).2.map (fun h => Hash.get h "id")
           = some (some x) ∧
       (claim_job ip now s).1.lrange q = xs ∧
       (∀ r ∈ queueNames, r ≠ q →
         (claim_job ip now s).1.lrange r = s.lrange r)) ∧
    claimAll ((s.lrange (qn "0")).length + (s.lrange (qn "1")).length +
        (s.lrange (qn "2")).length) ip now s
      = s.lrange (qn "0") ++ s.lrange (qn "1") ++ s.lrange (qn "2") := by
  constructor
  · cases hd : dequeueHighestSpec s with
    | none =>
      have hE := claim_job_eq s ip now (wfQueues_empty_not_mem s hwf)
      rw [hd] at hE
      exact hE
    | some v =>
      obtain ⟨q, x, xs⟩ := v
      obtain ⟨hid, hpopped, hothers, _⟩ :=
        claim_job_step s ip now q x xs hwf hd
      exact ⟨hid, hpopped, hothers⟩
  · exact claimAll_order _ s ip now hwf rfl

/-- C3 witness: two jobs queued at priority 1 before a later, higher
priority job at 0; draining claims the priority-0 job first, then the two
priority-1 jobs in FIFO order. -/
theorem C3_witness :
    wfQueues (⟨[("a1", uploadRecord "a1" "a.zip" "1" "10"),
                ("a2", uploadRecord "a2" "b.zip" "1" "11"),
                ("b1", uploadRecord "b1" "c.zip" "0" "12")],
               [(qn "1", ["a1", "a2"]), (qn "0", ["b1"])]⟩ : Store) ∧
    claimAll 3 "ip" "13"
        (⟨[("a1", uploadRecord "a1" "a.zip" "1" "10"),
           ("a2", uploadRecord "a2" "b.zip" "1" "11"),
           ("b1", uploadRecord "b1" "c.zip" "0" "12")],
          [(qn "1", ["a1", "a2"]), (qn "0", ["b1"])]⟩ : Store)
      = ["b1", "a1", "a2"] := by
  refine ⟨by decide, ?_⟩
  have h := C3_claim_priority_fifo
    (⟨[("a1", uploadRecord "a1" "a.zip" "1" "10"),
       ("a2", uploadRecord "a2" "b.zip" "1" "11"),
       ("b1", uploadRecord "b1" "c.zip" "0" "12")],
      [(qn "1", ["a1", "a2"]), (qn "0", ["b1"])]⟩ : Store) "ip" "13"
    (by decide)
  have h2 := h.2
  exact h2

/-! ### C4 -/

/-- The `id` field a record offers to `repopulate_queues`. -/
def jidOf (h : Hash) : String := (Hash.get h "id").getD ""

/-- The queue `repopulate_queues` targets for a record (priority field,
defaulting to `"1"`). -/
def prioQ (h : Hash) : String := qn ((Hash.get h "priority").getD "1")

/-- A record in status `queued`. -/
def isQueuedRec (h : Hash) : Prop := Hash.get h "status" = some "queued"

instance (h : Hash) : Decidable (isQueuedRec h) :=
  inferInstanceAs (Decidable (_ = _))

/-- The ids recovery pushes onto queue `q`: exactly the queued records
targeting `q` whose id is absent from `q`, in record order. -/
def pushedIds (s : Store) (q : String) : List String :=
  ((s.hashes.map Prod.snd).filter
    (fun h => decide (isQueuedRec h ∧ prioQ h = q ∧
      jidOf h ∉ s.lrange q))).map jidOf

/-- The number of records recovery restores. -/
def restoredCount (s : Store) : Nat :=
  ((s.hashes.map Prod.snd).filter
    (fun h => decide (isQueuedRec h ∧
      jidOf h ∉ s.lrange (prioQ h)))).length

/-- Well-formedness of the Job Store, true of every reachable state: keys
are distinct and every queued record's `id` field names its own key (as
`upload` writes it). -/
def wfJobs (s : Store) : Prop :=
  (s.hashes.map Prod.fst).Nodup ∧
  ∀ kh ∈ s.hashes, isQueuedRec kh.2 → Hash.get kh.2 "id" = some kh.1

instance (s : Store) : Decidable (wfJobs s) :=
  inferInstanceAs (Decidable (_ ∧ ∀ kh ∈ s.hashes, _ → _))

theorem mem_rpush_iff (s : Store) (qk v q x : String) :
    x ∈ (s.rpush qk v).lrange q ↔ x ∈ s.lrange q ∨ (q = qk ∧ x = v) := by
  by_cases hq : q = qk
  · subst hq
    rw [Store.lrange_rpush_self]
    simp
  · rw [Store.lrange_rpush_ne s hq]
    simp [hq]

theorem filter_push_rpush (L : List Hash) (s : Store) (qk jid : String)
    (hnot : ∀ h ∈ L, isQueuedRec h → jidOf h ≠ jid) (q : String) :
    L.filter (fun h => decide (isQueuedRec h ∧ prioQ h = q ∧
        jidOf h ∉ (s.rpush qk jid).lrange q))
      = L.filter (fun h => decide (isQueuedRec h ∧ prioQ h = q ∧
        jidOf h ∉ s.lrange q)) := by
  apply List.filter_congr
  intro h hmem
  by_cases hq : isQueuedRec h
  · have hne := hnot h hmem hq
    have hiff : (jidOf h ∈ (s.rpush qk jid).lrange q)
        ↔ jidOf h ∈ s.lrange q := by
      rw [mem_rpush_iff]
      simp [hne]
    simp [hiff]
  · simp [hq]

theorem filter_cnt_rpush (L : List Hash) (s : Store) (qk jid : String)
    (hnot : ∀ h ∈ L, isQueuedRec h → jidOf h ≠ jid) :
    L.filter (fun h => decide (isQueuedRec h ∧
        jidOf h ∉ (s.rpush qk jid).lrange (prioQ h)))
      = L.filter (fun h => decide (isQueuedRec h ∧
        jidOf h ∉ s.lrange (prioQ h))) := by
  apply List.filter_congr
  intro h hmem
  by_cases hq : isQueuedRec h
  · have hne := hnot h hmem hq
    have hiff : (jidOf h ∈ (s.rpush qk jid).lrange (prioQ h))
        ↔ jidOf h ∈ s.lrange (prioQ h) := by
      rw [mem_rpush_iff]
      simp [hne]
    simp [hiff]
  · simp [hq]

theorem repop_go (L : List Hash) :
    ∀ (s : Store) (n : Nat),
      (∀ h ∈ L, isQueuedRec h → Hash.get h "id" ≠ none) →
      ((L.filter (fun h => decide (isQueuedRec h))).map jidOf).Nodup →
      (L.foldl repopStep (s, n, none)).2.2 = none ∧
      (∀ q, (L.foldl repopStep (s, n, none)).1.lrange q
          = s.lrange q ++
            (L.filter (fun h => decide (isQueuedRec h ∧ prioQ h = q ∧
                jidOf h ∉ s.lrange q))).map jidOf) ∧
      (L.foldl repopStep (s, n, none)).1.hashes = s.hashes ∧
      (L.foldl repopStep (s, n, none)).2.1
          = n + (L.filter (fun h => decide (isQueuedRec h ∧
              jidOf h ∉ s.lrange (prioQ h)))).length := by
  induction L with
  | nil =>
    intro s n _ _
    simp [List.foldl_nil]
  | cons h L ih =>
    intro s n hid hnd
    by_cases hq : isQueuedRec h
    · have hjid : ∃ jid, Hash.get h "id" = some jid := by
        cases hg : Hash.get h "id" with
        | none => exact absurd hg (hid h (List.mem_cons_self _ _) hq)
        | some jid => exact ⟨jid, rfl⟩
      obtain ⟨jid, hjid⟩ := hjid
      have hjof : jidOf h = jid := by simp [jidOf, hjid]
      have hfq : L.filter (fun h => decide (isQueuedRec h))
          = L.filter (fun h => decide (isQueuedRec h)) := rfl
      have hnd' : ((L.filter (fun h => decide (isQueuedRec h))).map
          jidOf).Nodup ∧
          jidOf h ∉ (L.filter (fun h => decide (isQueuedRec h))).map
            jidOf := by
        have : (h :: L).filter (fun h => decide (isQueuedRec h))
            = h :: L.filter (fun h => decide (isQueuedRec h)) := by
          simp [List.filter_cons, hq]
        rw [this] at hnd
        simp only [List.map_cons, List.nodup_cons] at hnd
        exact ⟨hnd.2, hnd.1⟩
      have hid' : ∀ x ∈ L, isQueuedRec x → Hash.get x "id" ≠ none :=
        fun x hx => hid x (List.mem_cons_of_mem _ hx)
      have hnot : ∀ x ∈ L, isQueuedRec x → jidOf x ≠ jid := by
        intro x hx hqx he
        apply hnd'.2
        have hxh : jidOf h = jidOf x := by rw [hjof, he]
        rw [hxh]
        exact List.mem_map_of_mem jidOf
          (List.mem_filter.mpr ⟨hx, by simp [hqx]⟩)
      have hstep : (h :: L).foldl repopStep (s, n, none)
          = L.foldl repopStep (repopStep (s, n, none) h) := rfl
      have hq2 : Hash.get h "status" = some "queued" := hq
      by_cases hmem : jid ∈ s.lrange (prioQ h)
      · have hmem2 : jid ∈ s.lrange (qn ((Hash.get h "priority").getD "1")) :=
          hmem
        have hs : repopStep (s, n, none) h = (s, n, none) := by
          simp only [repopStep, hjid]
          rw [if_pos hq2, if_pos hmem2]
        rw [hstep, hs]
        obtain ⟨i1, i2, i3, i4⟩ := ih s n hid' hnd'.1
        have hdrop : ∀ q, decide (isQueuedRec h ∧ prioQ h = q ∧
            jidOf h ∉ s.lrange q) = false := by
          intro q
          simp only [decide_eq_false_iff_not]
          rintro ⟨_, hpq, hnm⟩
          exact hnm (hpq ▸ (hjof ▸ hmem))
        have hdropc : decide (isQueuedRec h ∧
            jidOf h ∉ s.lrange (prioQ h)) = false := by
          simp only [decide_eq_false_iff_not]
          rintro ⟨_, hnm⟩
          exact hnm (hjof ▸ hmem)
        refine ⟨i1, ?_, i3, ?_⟩
        · intro q
          rw [i2 q, List.filter_cons, hdrop q]
          simp
        · rw [i4, List.filter_cons, hdropc]
          simp
      · have hmem2 : jid ∉ s.lrange (qn ((Hash.get h "priority").getD "1")) :=
          hmem
        have hs : repopStep (s, n, none) h
            = (s.rpush (prioQ h) jid, n + 1, none) := by
          simp only [repopStep, hjid]
          rw [if_pos hq2, if_neg hmem2]
          rfl
        rw [hstep, hs]
        obtain ⟨i1, i2, i3, i4⟩ :=
          ih (s.rpush (prioQ h) jid) (n + 1) hid' hnd'.1
        refine ⟨i1, ?_, ?_, ?_⟩
        · intro q
          rw [i2 q, filter_push_rpush L s (prioQ h) jid hnot q]
          have hhd : decide (isQueuedRec h ∧ prioQ h = q ∧
              jidOf h ∉ s.lrange q) = decide (prioQ h = q) := by
            by_cases hpq : prioQ h = q
            · subst hpq
              simp [hq, hjof, hmem]
            · simp [hpq]
          by_cases hpq : prioQ h = q
          · subst hpq
            rw [Store.lrange_rpush_self]
            rw [List.filter_cons, hhd]
            simp [hjof]
          · rw [Store.lrange_rpush_ne s (fun he => hpq he.symm)]
            rw [List.filter_cons, hhd]
            simp [hpq]
        · rw [i3, Store.hashes_rpush]
        · rw [i4, filter_cnt_rpush L s (prioQ h) jid hnot]
          have hhd : decide (isQueuedRec h ∧
              jidOf h ∉ s.lrange (prioQ h)) = true := by
            simp [hq, hjof, hmem]
          rw [List.filter_cons, hhd]
          simp
          omega
    · have hq2 : ¬Hash.get h "status" = some "queued" := hq
      have hs : repopStep (s, n, none) h = (s, n, none) := by
        simp only [repopStep]
        rw [if_neg hq2]
      have hstep : (h :: L).foldl repopStep (s, n, none)
          = L.foldl repopStep (repopStep (s, n, none) h) := rfl
      rw [hstep, hs]
      have hid' : ∀ x ∈ L, isQueuedRec x → Hash.get x "id" ≠ none :=
        fun x hx => hid x (List.mem_cons_of_mem _ hx)
      have hnd' : ((L.filter (fun h => decide (isQueuedRec h))).map
          jidOf).Nodup := by
        have : (h :: L).filter (fun h => decide (isQueuedRec h))
            = L.filter (fun h => decide (isQueuedRec h)) := by
          simp [List.filter_cons, hq]
        rw [this] at hnd
        exact hnd
      obtain ⟨i1, i2, i3, i4⟩ := ih s n hid' hnd'
      refine ⟨i1, ?_, i3, ?_⟩
      · intro q
        rw [i2 q, List.filter_cons]
        simp [hq]
      · rw [i4, List.filter_cons]
        simp [hq]

/-- A second pass over records already present in their queues changes
nothing. -/
theorem repop_go_noop (L : List Hash) :
    ∀ (s : Store) (n : Nat),
      (∀ h ∈ L, isQueuedRec h → Hash.get h "id" ≠ none) →
      (∀ h ∈ L, isQueuedRec h → jidOf h ∈ s.lrange (prioQ h)) →
      L.foldl repopStep (s, n, none) = (s, n, none) := by
  induction L with
  | nil => intro s n _ _; rfl
  | cons h L ih =>
    intro s n hid hin
    by_cases hq : isQueuedRec h
    · have hjid : ∃ jid, Hash.get h "id" = some jid := by
        cases hg : Hash.get h "id" with
        | none =>
          exact absurd hg (hid h (List.mem_cons_self _ _) hq)
        | some jid => exact ⟨jid, rfl⟩
      obtain ⟨jid, hjid⟩ := hjid
      have hjof : jidOf h = jid := by simp [jidOf, hjid]
      have hmem : jid ∈ s.lrange (prioQ h) :=
        hjof ▸ hin h (List.mem_cons_self _ _) hq
      have hq2 : Hash.get h "status" = some "queued" := hq
      have hmem2 : jid ∈ s.lrange (qn ((Hash.get h "priority").getD "1")) :=
        hmem
      have hs : repopStep (s, n, none) h = (s, n, none) := by
        simp only [repopStep, hjid]
        rw [if_pos hq2, if_pos hmem2]
      show L.foldl repopStep (repopStep (s, n, none) h) = (s, n, none)
      rw [hs]
      exact ih s n (fun x hx => hid x (List.mem_cons_of_mem _ hx))
        (fun x hx => hin x (List.mem_cons_of_mem _ hx))
    · have hq2 : ¬Hash.get h "status" = some "queued" := hq
      have hs : repopStep (s, n, none) h = (s, n, none) := by
        simp only [repopStep]
        rw [if_neg hq2]
      show L.foldl repopStep (repopStep (s, n, none) h) = (s, n, none)
      rw [hs]
      exact ih s n (fun x hx => hid x (List.mem_cons_of_mem _ hx))
        (fun x hx => hin x (List.mem_cons_of_mem _ hx))

theorem wfJobs_hyps (s : Store) (hwf : wfJobs s) :
    (∀ h ∈ s.hashes.map Prod.snd, isQueuedRec h →
      Hash.get h "id" ≠ none) ∧
    (((s.hashes.map Prod.snd).filter
      (fun h => decide (isQueuedRec h))).map jidOf).Nodup := by
  obtain ⟨hnd, hids⟩ := hwf
  constructor
  · intro h hmem hq
    obtain ⟨kh, hkh, rfl⟩ := List.mem_map.mp hmem
    rw [hids kh hkh hq]
    simp
  · have hcomm : (s.hashes.map Prod.snd).filter
        (fun h => decide (isQueuedRec h))
        = (s.hashes.filter (fun kh => decide (isQueuedRec kh.2))).map
            Prod.snd := by
      rw [List.filter_map]
      rfl
    rw [hcomm, List.map_map]
    have hpt : ∀ kh ∈ s.hashes.filter
        (fun kh => decide (isQueuedRec kh.2)),
        (jidOf ∘ Prod.snd) kh = kh.1 := by
      intro kh hkh
      obtain ⟨hmem, hq⟩ := List.mem_filter.mp hkh
      simp only [Function.comp_apply, jidOf,
        hids kh hmem (of_decide_eq_true hq)]
      rfl
    rw [List.map_congr_left hpt]
    exact ((List.filter_sublist _).map Prod.fst).nodup hnd

/-- C4: from any well-formed Job Store and any queue contents, recovery
raises nothing and appends to each queue exactly the queued records whose
id was absent from their priority's queue (in record order), counts
exactly those records as restored, touches no record, and is idempotent:
an immediate second run changes nothing and restores zero. -/
theorem C4_recovery_exact_and_idempotent (s : Store) (hwf : wfJobs s) :
    (repopulate_queues s).2.2 = none ∧
    (∀ q, (repopulate_queues s).1.lrange q
        = s.lrange q ++ pushedIds s q) ∧
    (repopulate_queues s).1.hashes = s.hashes ∧
    (repopulate_queues s).2.1 = restoredCount s ∧
    repopulate_queues (repopulate_queues s).1
      = ((repopulate_queues s).1, 0, none) := by
  obtain ⟨hid, hnd⟩ := wfJobs_hyps s hwf
  obtain ⟨i1, i2, i3, i4⟩ := repop_go (s.hashes.map Prod.snd) s 0 hid hnd
  have hrQ : repopulate_queues s
      = (s.hashes.map Prod.snd).foldl repopStep (s, 0, none) := rfl
  have i2Q : ∀ q, (repopulate_queues s).1.lrange q
      = s.lrange q ++ pushedIds s q := by
    intro q
    rw [hrQ, i2 q]
    rfl
  have i3Q : (repopulate_queues s).1.hashes = s.hashes := by
    rw [hrQ]
    exact i3
  refine ⟨by rw [hrQ]; exact i1, i2Q, i3Q, ?_, ?_⟩
  · rw [hrQ, i4, Nat.zero_add]
    rfl
  · have hLsame : (repopulate_queues s).1.hashes.map Prod.snd
        = s.hashes.map Prod.snd := by rw [i3Q]
    show ((repopulate_queues s).1.hashes.map Prod.snd).foldl repopStep
        ((repopulate_queues s).1, 0, none)
      = ((repopulate_queues s).1, 0, none)
    rw [hLsame]
    apply repop_go_noop
    · exact hid
    · intro h hmem hq
      rw [i2Q (prioQ h)]
      by_cases hin : jidOf h ∈ s.lrange (prioQ h)
      · exact List.mem_append_left _ hin
      · refine List.mem_append_right _ ?_
        unfold pushedIds
        exact List.mem_map_of_mem jidOf
          (List.mem_filter.mpr ⟨hmem, by simp [hq, hin]⟩)

/-- C4 witness: the spec's restart scenario — two queued jobs and one
completed job with the queues cleared; recovery restores exactly the two
queued jobs, and a second run restores nothing. -/
theorem C4_witness :
    wfJobs (⟨[("q1", uploadRecord "q1" "a.zip" "0" "10"),
              ("q2", uploadRecord "q2" "b.zip" "1" "11"),
              ("c1",
               [("id", "c1"), ("filename", "c.zip"), ("priority", "1"),
                ("status", "completed"), ("timestamp_queued", "9"),
                ("timestamp_claimed", "10"), ("timestamp_completed", "12"),
                ("claimed_by", "10.0.0.5"), ("elapsed_seconds", "2"),
                ("result_filename", "r.txt"), ("collected", "False")])],
             []⟩ : Store) ∧
    (repopulate_queues (⟨[("q1", uploadRecord "q1" "a.zip" "0" "10"),
              ("q2", uploadRecord "q2" "b.zip" "1" "11"),
              ("c1",
               [("id", "c1"), ("filename", "c.zip"), ("priority", "1"),
                ("status", "completed"), ("timestamp_queued", "9"),
                ("timestamp_claimed", "10"), ("timestamp_completed", "12"),
                ("claimed_by", "10.0.0.5"), ("elapsed_seconds", "2"),
                ("result_filename", "r.txt"), ("collected", "False")])],
             []⟩ : Store)).2.1 = 2 ∧
    (repopulate_queues
      (repopulate_queues (⟨[("q1", uploadRecord "q1" "a.zip" "0" "10"),
              ("q2", uploadRecord "q2" "b.zip" "1" "11"),
              ("c1",
               [("id", "c1"), ("filename", "c.zip"), ("priority", "1"),
                ("status", "completed"), ("timestamp_queued", "9"),
                ("timestamp_claimed", "10"), ("timestamp_completed", "12"),
                ("claimed_by", "10.0.0.5"), ("elapsed_seconds", "2"),
                ("result_filename", "r.txt"), ("collected", "False")])],
             []⟩ : Store)).1).2.1 = 0 := by
  have h := C4_recovery_exact_and_idempotent
    (⟨[("q1", uploadRecord "q1" "a.zip" "0" "10"),
       ("q2", uploadRecord "q2" "b.zip" "1" "11"),
       ("c1",
        [("id", "c1"), ("filename", "c.zip"), ("priority", "1"),
         ("status", "completed"), ("timestamp_queued", "9"),
         ("timestamp_claimed", "10"), ("timestamp_completed", "12"),
         ("claimed_by", "10.0.0.5"), ("elapsed_seconds", "2"),
         ("result_filename", "r.txt"), ("collected", "False")])],
      []⟩ : Store) (by decide)
  refine ⟨by decide, ?_, ?_⟩
  · rw [h.2.2.2.1]
    decide
  · rw [h.2.2.2.2]

/-! ### C1: invariant machinery -/

theorem mem_updateA_strong {α : Type} {l : List (String × α)} {k : String}
    {v : α} {x : String × α} (hnd : (l.map Prod.fst).Nodup)
    (hx : x ∈ updateA l k v) : (x ∈ l ∧ x.1 ≠ k) ∨ x = (k, v) := by
  induction l with
  | nil =>
    simp [updateA] at hx
    exact Or.inr hx
  | cons hd t ih =>
    obtain ⟨b, y⟩ := hd
    simp only [List.map_cons, List.nodup_cons] at hnd
    by_cases hb : b = k
    · subst hb
      rw [updateA, if_pos rfl] at hx
      rcases List.mem_cons.mp hx with h | h
      · exact Or.inr h
      · refine Or.inl ⟨List.mem_cons_of_mem _ h, ?_⟩
        intro hc
        exact hnd.1 (hc ▸ List.mem_map_of_mem Prod.fst h)
    · rw [updateA, if_neg hb] at hx
      rcases List.mem_cons.mp hx with h | h
      · subst h
        exact Or.inl ⟨List.mem_cons_self _ _, hb⟩
      · rcases ih hnd.2 h with ⟨hm, hne⟩ | he
        · exact Or.inl ⟨List.mem_cons_of_mem _ hm, hne⟩
        · exact Or.inr he

theorem lookupA_eq_of_mem_nodup {α : Type} {l : List (String × α)}
    {k : String} {v : α} (hnd : (l.map Prod.fst).Nodup)
    (hm : (k, v) ∈ l) : lookupA l k = some v := by
  induction l with
  | nil => simp at hm
  | cons hd t ih =>
    obtain ⟨b, y⟩ := hd
    simp only [List.map_cons, List.nodup_cons] at hnd
    rcases List.mem_cons.mp hm with h | h
    · obtain ⟨rfl, rfl⟩ := Prod.mk.injEq .. ▸ h
      injection h with h1 h2
      simp [lookupA]
    · have hbk : b ≠ k := by
        intro hc
        subst hc
        exact hnd.1 (List.mem_map_of_mem Prod.fst h)
      simp [lookupA, hbk, ih hnd.2 h]

theorem lookupA_of_hgetall_ne (s : Store) (k : String)
    (h : s.hgetall k ≠ []) : lookupA s.hashes k = some (s.hgetall k) := by
  unfold Store.hgetall at h ⊢
  cases hl : lookupA s.hashes k with
  | none => rw [hl] at h; simp at h
  | some v => simp

theorem hgetall_eq_of_mem_nodup (s : Store) {k : String} {v : Hash}
    (hnd : (s.hashes.map Prod.fst).Nodup) (hm : (k, v) ∈ s.hashes) :
    s.hgetall k = v := by
  unfold Store.hgetall
  rw [lookupA_eq_of_mem_nodup hnd hm]
  rfl

theorem mem_QM_of_mem_lrange (s : Store) {q k : String}
    (hq : q ∈ queueNames) (hk : k ∈ s.lrange q) : k ∈ s.queueMembers := by
  have hq3 : q = qn "0" ∨ q = qn "1" ∨ q = qn "2" := by
    simpa [queueNames] using hq
  unfold Store.queueMembers
  rcases hq3 with h | h | h
  · subst h
    exact List.mem_append_left _ (List.mem_append_left _ hk)
  · subst h
    exact List.mem_append_left _ (List.mem_append_right _ hk)
  · subst h
    exact List.mem_append_right _ hk

theorem QM_hset (s : Store) (k : String) (m : Hash) :
    (s.hset k m).queueMembers = s.queueMembers := rfl

theorem lrange_hgetall_indep (s : Store) (k : String) (m : Hash) :
    ∀ q, (s.hset k m).lrange q = s.lrange q := fun _ => rfl

/-- Popping the head of a queue splits the member list around it. -/
theorem QM_setList_pop (s : Store) {q x : String} {xs : List String}
    (hq : q ∈ queueNames) (hx : s.lrange q = x :: xs) :
    ∃ A B, s.queueMembers = A ++ x :: B ∧
      (s.setList q xs).queueMembers = A ++ B ∧
      (s.setList q xs).lrange q = xs ∧
      (∀ r ∈ queueNames, r ≠ q → (s.setList q xs).lrange r = s.lrange r) := by
  have e01 : qn "0" ≠ qn "1" := by decide
  have e02 : qn "0" ≠ qn "2" := by decide
  have e12 : qn "1" ≠ qn "2" := by decide
  have hq3 : q = qn "0" ∨ q = qn "1" ∨ q = qn "2" := by
    simpa [queueNames] using hq
  rcases hq3 with h | h | h
  · subst h
    refine ⟨[], xs ++ s.lrange (qn "1") ++ s.lrange (qn "2"), ?_, ?_, ?_, ?_⟩
    · unfold Store.queueMembers
      rw [hx]
      simp
    · unfold Store.queueMembers
      rw [Store.lrange_setList_self,
        Store.lrange_setList_ne s (Ne.symm e01),
        Store.lrange_setList_ne s (Ne.symm e02)]
      simp
    · exact Store.lrange_setList_self s _ _
    · intro r _ hr
      exact Store.lrange_setList_ne s hr xs
  · subst h
    refine ⟨s.lrange (qn "0"), xs ++ s.lrange (qn "2"), ?_, ?_, ?_, ?_⟩
    · unfold Store.queueMembers
      rw [hx]
      simp
    · unfold Store.queueMembers
      rw [Store.lrange_setList_self, Store.lrange_setList_ne s e01,
        Store.lrange_setList_ne s (Ne.symm e12)]
      simp
    · exact Store.lrange_setList_self s _ _
    · intro r _ hr
      exact Store.lrange_setList_ne s hr xs
  · subst h
    refine ⟨s.lrange (qn "0") ++ s.lrange (qn "1"), xs, ?_, ?_, ?_, ?_⟩
    · unfold Store.queueMembers
      rw [hx]
    · unfold Store.queueMembers
      rw [Store.lrange_setList_self, Store.lrange_setList_ne s e02,
        Store.lrange_setList_ne s e12]
    · exact Store.lrange_setList_self s _ _
    · intro r _ hr
      exact Store.lrange_setList_ne s hr xs

/-- Pushing onto a queue inserts the value into the member list. -/
theorem QM_rpush (s : Store) {q : String} (v : String)
    (hq : q ∈ queueNames) :
    ∃ A B, s.queueMembers = A ++ B ∧
      (s.rpush q v).queueMembers = A ++ v :: B := by
  have e01 : qn "0" ≠ qn "1" := by decide
  have e02 : qn "0" ≠ qn "2" := by decide
  have e12 : qn "1" ≠ qn "2" := by decide
  have hq3 : q = qn "0" ∨ q = qn "1" ∨ q = qn "2" := by
    simpa [queueNames] using hq
  rcases hq3 with h | h | h
  · subst h
    refine ⟨s.lrange (qn "0"), s.lrange (qn "1") ++ s.lrange (qn "2"),
      by unfold Store.queueMembers; simp, ?_⟩
    unfold Store.queueMembers
    rw [Store.lrange_rpush_self, Store.lrange_rpush_ne s (Ne.symm e01),
      Store.lrange_rpush_ne s (Ne.symm e02)]
    simp
  · subst h
    refine ⟨s.lrange (qn "0") ++ s.lrange (qn "1"), s.lrange (qn "2"),
      by unfold Store.queueMembers; simp, ?_⟩
    unfold Store.queueMembers
    rw [Store.lrange_rpush_self, Store.lrange_rpush_ne s e01,
      Store.lrange_rpush_ne s (Ne.symm e12)]
    simp
  · subst h
    refine ⟨s.lrange (qn "0") ++ s.lrange (qn "1") ++ s.lrange (qn "2"), [],
      by simp [Store.queueMembers], ?_⟩
    unfold Store.queueMembers
    rw [Store.lrange_rpush_self, Store.lrange_rpush_ne s e02,
      Store.lrange_rpush_ne s e12]
    simp

/-- The full inductive invariant of the dispatch engine, stated as the
claim does and strengthened to what the operations actually maintain:
distinct well-formed records (never keyed by a queue name); every queue
member is a nonempty id occurring exactly once across the Priority Queue
Set, whose record has status `queued` and `id` = the key; and every queued
record sits in exactly its own (valid) priority's queue. -/
def Inv (s : Store) : Prop :=
  (s.hashes.map Prod.fst).Nodup ∧
  (∀ kh ∈ s.hashes, kh.2.wff ∧ kh.1 ∉ queueNames) ∧
  (∀ k ∈ s.queueMembers, k ≠ "" ∧
     Hash.get (s.hgetall k) "status" = some "queued" ∧
     Hash.get (s.hgetall k) "id" = some k ∧
     s.queueMembers.count k = 1) ∧
  (∀ kh ∈ s.hashes, isQueuedRec kh.2 →
     (Hash.get kh.2 "priority").getD "1" ∈ (["0", "1", "2"] : List String) ∧
     kh.1 ∈ s.lrange (prioQ kh.2))

instance (s : Store) : Decidable (Inv s) :=
  inferInstanceAs (Decidable (_ ∧ (∀ kh ∈ s.hashes, _ ∧ _) ∧
    (∀ k ∈ s.queueMembers, _ ∧ _ ∧ _ ∧ _) ∧
    (∀ kh ∈ s.hashes, _ → _ ∧ _)))

/-- The operations of the core, with the ambient inputs (fresh id, clock
reading, caller address) as parameters. -/
inductive Op where
  | submit (jobId filename priority ts : String)
  | claim (ip now : String)
  | report (jobId resultName now : String)
  | collect (jobId : String)
  | deleteJ (jobId : String)
  | recover

/-- The store each operation leaves behind (error responses leave the
store as the route left it). -/
def Op.apply : Op → Store → Store
  | .submit jobId fn p ts, s => (upload jobId fn p ts s).1
  | .claim ip now, s => (claim_job ip now s).1
  | .report jobId rn now, s => (upload_result jobId rn now s).1
  | .collect jobId, s => (mark_collected jobId s).1
  | .deleteJ jobId, s => (delete_job jobId s).1
  | .recover, s => (repopulate_queues s).1

/-- Side conditions under which an operation runs in the real system:
`submit` is handed a fresh nonempty uuid4 (never a queue key), and
`reportResult` is only called for a job that is no longer queued (its
by-convention precondition, status = claimed). -/
def opOk : Op → Store → Prop
  | .submit jobId _ _ _, s =>
      jobId ≠ "" ∧ jobId ∉ s.hashes.map Prod.fst ∧
      jobId ∉ s.queueMembers ∧ jobId ∉ queueNames
  | .report jobId _ _, s =>
      Hash.get (s.hgetall jobId) "status" ≠ some "queued"
  | _, _ => True

instance (o : Op) (s : Store) : Decidable (opOk o s) := by
  unfold opOk
  cases o <;> infer_instance

theorem prioQ_mem_queueNames {h : Hash}
    (hp : (Hash.get h "priority").getD "1"
      ∈ (["0", "1", "2"] : List String)) : prioQ h ∈ queueNames := by
  have h3 : (Hash.get h "priority").getD "1" = "0" ∨
      (Hash.get h "priority").getD "1" = "1" ∨
      (Hash.get h "priority").getD "1" = "2" := by simpa using hp
  unfold prioQ queueNames
  rcases h3 with h1 | h1 | h1 <;> rw [h1] <;> simp

/-- Writing a mapping back over an existing record whose merged result is
not `queued` (and whose stored status was not `queued` either) preserves
the invariant: the queues are untouched and no member points at the
record. -/
theorem Inv_hset_nonqueued (s : Store) (jobId : String) (m : Hash)
    (hInv : Inv s) (hne : s.hgetall jobId ≠ [])
    (hold : Hash.get (s.hgetall jobId) "status" ≠ some "queued")
    (hstm : (s.hgetall jobId).wff →
      Hash.get ((s.hgetall jobId).merge m) "status" ≠ some "queued") :
    Inv (s.hset jobId m) := by
  obtain ⟨hnd, hwq, hmem, hrec⟩ := hInv
  have hlook := lookupA_of_hgetall_ne s jobId hne
  have hkh : (jobId, s.hgetall jobId) ∈ s.hashes := mem_of_lookupA hlook
  have hkey : jobId ∈ s.hashes.map Prod.fst :=
    List.mem_map_of_mem Prod.fst hkh
  have hwfh : (s.hgetall jobId).wff := (hwq _ hkh).1
  have hkeys : (s.hset jobId m).hashes.map Prod.fst
      = s.hashes.map Prod.fst := by
    show (updateA s.hashes jobId _).map Prod.fst = _
    rw [keys_updateA, if_pos hkey]
  refine ⟨by rw [hkeys]; exact hnd, ?_, ?_, ?_⟩
  · intro kh hm
    rcases mem_updateA_strong hnd hm with ⟨hm', _⟩ | he
    · exact hwq kh hm'
    · subst he
      exact ⟨Hash.wff_merge _ m hwfh, (hwq _ hkh).2⟩
  · intro k hk
    rw [QM_hset] at hk
    obtain ⟨h1, h2, h3, h4⟩ := hmem k hk
    have hkj : k ≠ jobId := by
      intro hc
      exact hold (hc ▸ h2)
    rw [QM_hset]
    rw [show (s.hset jobId m).hgetall k = s.hgetall k from
      Store.hgetall_hset_ne s hkj m]
    exact ⟨h1, h2, h3, h4⟩
  · intro kh hm hq
    rcases mem_updateA_strong hnd hm with ⟨hm', _⟩ | he
    · obtain ⟨hpv, hin⟩ := hrec kh hm' hq
      exact ⟨hpv, by rw [lrange_hgetall_indep]; exact hin⟩
    · subst he
      exact absurd hq (hstm hwfh)

theorem Inv_collect (s : Store) (jobId : String) (hInv : Inv s) :
    Inv (mark_collected jobId s).1 := by
  by_cases hnil : s.hgetall jobId = []
  · have hres : (mark_collected jobId s).1 = s := by
      simp [mark_collected, hnil]
    rw [hres]
    exact hInv
  · by_cases hst : Hash.get (s.hgetall jobId) "status" = some "completed"
    · have hres : (mark_collected jobId s).1
          = s.hset jobId ((s.hgetall jobId).set "collected" "True") := by
        rw [mark_collected_completed s jobId _ rfl hst]
      rw [hres]
      refine Inv_hset_nonqueued s jobId _ hInv hnil ?_ ?_
      · rw [hst]
        decide
      · intro hw
        rw [Hash.get_merge_set _ hw "collected" "status" "True",
          if_neg (by decide : ("status" : String) ≠ "collected"), hst]
        decide
    · have hres : (mark_collected jobId s).1 = s := by
        simp [mark_collected, hnil, hst]
      rw [hres]
      exact hInv

theorem Inv_recover (s : Store) (hInv : Inv s) :
    Inv (repopulate_queues s).1 := by
  have hnoop : repopulate_queues s = (s, 0, none) := by
    show (s.hashes.map Prod.snd).foldl repopStep (s, 0, none) = (s, 0, none)
    apply repop_go_noop
    · intro h hmemL hq
      obtain ⟨kh, hkh, rfl⟩ := List.mem_map.mp hmemL
      obtain ⟨hpv, hin⟩ := hInv.2.2.2 kh hkh hq
      have hQM := mem_QM_of_mem_lrange s (prioQ_mem_queueNames hpv) hin
      obtain ⟨_, _, hid, _⟩ := hInv.2.2.1 kh.1 hQM
      rw [hgetall_eq_of_mem_nodup s hInv.1 hkh] at hid
      rw [hid]
      simp
    · intro h hmemL hq
      obtain ⟨kh, hkh, rfl⟩ := List.mem_map.mp hmemL
      obtain ⟨hpv, hin⟩ := hInv.2.2.2 kh hkh hq
      have hQM := mem_QM_of_mem_lrange s (prioQ_mem_queueNames hpv) hin
      obtain ⟨_, _, hid, _⟩ := hInv.2.2.1 kh.1 hQM
      rw [hgetall_eq_of_mem_nodup s hInv.1 hkh] at hid
      have : jidOf kh.2 = kh.1 := by simp [jidOf, hid]
      rw [this]
      exact hin
  rw [hnoop]
  exact hInv

theorem Inv_report (s : Store) (jobId rn now : String) (hInv : Inv s)
    (hok : Hash.get (s.hgetall jobId) "status" ≠ some "queued") :
    Inv (upload_result jobId rn now s).1 := by
  by_cases hnil : s.hgetall jobId = []
  · have hres : (upload_result jobId rn now s).1 = s := by
      simp [upload_result, hnil]
    rw [hres]
    exact hInv
  · have hst4 : Hash.get (Hash.set (Hash.set (Hash.set
        (Hash.set (s.hgetall jobId) "result_filename" rn)
        "status" "completed") "timestamp_completed" now)
        "collected" "False") "status" = some "completed" := by
      rw [Hash.get_set_ne _ (by decide), Hash.get_set_ne _ (by decide),
        Hash.get_set_self]
    have hwf4 : (s.hgetall jobId).wff → (Hash.set (Hash.set (Hash.set
        (Hash.set (s.hgetall jobId) "result_filename" rn)
        "status" "completed") "timestamp_completed" now)
        "collected" "False").wff := fun hw =>
      Hash.wff_set _ _ _ (Hash.wff_set _ _ _ (Hash.wff_set _ _ _
        (Hash.wff_set _ _ _ hw)))
    have hrun : (upload_result jobId rn now s).1 = s ∨
        ∃ j, (upload_result jobId rn now s).1 = s.hset jobId j ∧
          Hash.get j "status" = some "completed" ∧
          ((s.hgetall jobId).wff → j.wff) := by
      simp only [upload_result, if_neg hnil]
      by_cases ht : truthy (Hash.get (Hash.set (Hash.set (Hash.set
          (Hash.set (s.hgetall jobId) "result_filename" rn)
          "status" "completed") "timestamp_completed" now)
          "collected" "False") "timestamp_claimed") = true
      · rw [if_pos ht]
        cases hc : calc_elapsed ((Hash.get (Hash.set (Hash.set (Hash.set
            (Hash.set (s.hgetall jobId) "result_filename" rn)
            "status" "completed") "timestamp_completed" now)
            "collected" "False") "timestamp_claimed").getD "") now with
        | error e => exact Or.inl rfl
        | ok d =>
          refine Or.inr ⟨_, rfl, ?_, ?_⟩
          · rw [Hash.get_set_ne _ (by decide), hst4]
          · intro hw
            exact Hash.wff_set _ _ _ (hwf4 hw)
      · rw [if_neg ht]
        exact Or.inr ⟨_, rfl, hst4, hwf4⟩
    rcases hrun with hres | ⟨j, hres, hjst, hjwf⟩
    · rw [hres]
      exact hInv
    · rw [hres]
      refine Inv_hset_nonqueued s jobId j hInv hnil hok ?_
      intro hw
      rw [Hash.get_merge _ _ (hjwf hw) "status", hjst]
      simp

theorem Inv_submit (s : Store) (jobId fn p ts : String) (hInv : Inv s)
    (hid0 : jobId ≠ "") (hfresh : jobId ∉ s.hashes.map Prod.fst)
    (hqm : jobId ∉ s.queueMembers) (hqn : jobId ∉ queueNames) :
    Inv (upload jobId fn p ts s).1 := by
  obtain ⟨hnd, hwq, hmem, hrec⟩ := hInv
  by_cases hp : p = "0" ∨ p = "1" ∨ p = "2"
  · have hres : (upload jobId fn p ts s).1
        = (s.hset jobId (uploadRecord jobId fn p ts)).rpush (qn p) jobId := by
      simp [upload, hp]
    have hqnp : qn p ∈ queueNames := by
      rcases hp with h | h | h <;> subst h <;> simp [queueNames]
    have hbase : s.hgetall jobId = [] := by
      unfold Store.hgetall
      rw [lookupA_eq_none_of_not_mem s.hashes hfresh]
      rfl
    have hjd : (s.hset jobId (uploadRecord jobId fn p ts)).hgetall jobId
        = uploadRecord jobId fn p ts := by
      rw [Store.hgetall_hset_self, hbase]
      rfl
    have hwfjd : (uploadRecord jobId fn p ts).wff := by
      show (List.map Prod.fst (uploadRecord jobId fn p ts)).Nodup
      show (["id", "filename", "priority", "status", "timestamp_queued",
        "timestamp_claimed", "timestamp_completed", "claimed_by",
        "elapsed_seconds", "result_filename", "collected"] :
          List String).Nodup
      decide
    obtain ⟨A, B, hAB, hAB2⟩ :=
      QM_rpush (s.hset jobId (uploadRecord jobId fn p ts)) jobId hqnp
    have hABs : s.queueMembers = A ++ B := hAB
    have hkeys : ((s.hset jobId (uploadRecord jobId fn p ts)).rpush (qn p)
        jobId).hashes.map Prod.fst = s.hashes.map Prod.fst ++ [jobId] := by
      rw [Store.hashes_rpush]
      show (updateA s.hashes jobId _).map Prod.fst = _
      rw [keys_updateA, if_neg hfresh]
    rw [hres]
    refine ⟨?_, ?_, ?_, ?_⟩
    · rw [hkeys]
      exact hnd.append (List.nodup_singleton jobId) (by simpa using hfresh)
    · intro kh hm
      rw [Store.hashes_rpush] at hm
      rcases mem_updateA_strong hnd hm with ⟨hm', _⟩ | he
      · exact hwq kh hm'
      · subst he
        refine ⟨?_, hqn⟩
        rw [hbase]
        exact hwfjd
    · intro k hk
      rw [hAB2] at hk ⊢
      have hgup : ∀ k', k' ≠ jobId →
          ((s.hset jobId (uploadRecord jobId fn p ts)).rpush (qn p)
            jobId).hgetall k' = s.hgetall k' := by
        intro k' hk'
        rw [Store.hgetall_rpush, Store.hgetall_hset_ne s hk']
      rcases List.mem_append.mp hk with hkA | hkx
      · have hkQM : k ∈ s.queueMembers := by
          rw [hABs]
          exact List.mem_append_left _ hkA
        have hkj : k ≠ jobId := fun hc => hqm (hc ▸ hkQM)
        obtain ⟨h1, h2, h3, h4⟩ := hmem k hkQM
        rw [hABs] at h4
        refine ⟨h1, by rw [hgup k hkj]; exact h2,
          by rw [hgup k hkj]; exact h3, ?_⟩
        simp only [List.count_append, List.count_cons] at h4 ⊢
        simp [hkj, Ne.symm hkj] at h4 ⊢
        omega
      · rcases List.mem_cons.mp hkx with hkj | hkB
        · have hgj : ((s.hset jobId (uploadRecord jobId fn p ts)).rpush
              (qn p) jobId).hgetall jobId = uploadRecord jobId fn p ts := by
            rw [Store.hgetall_rpush, hjd]
          have hcnt0 : (A ++ B).count jobId = 0 := by
            rw [← hABs]
            exact List.count_eq_zero_of_not_mem hqm
          subst hkj
          refine ⟨hid0, by rw [hgj]; rfl, by rw [hgj]; rfl, ?_⟩
          simp only [List.count_append, List.count_cons] at hcnt0 ⊢
          simp at hcnt0 ⊢
          omega
        · have hkQM : k ∈ s.queueMembers := by
            rw [hABs]
            exact List.mem_append_right _ hkB
          have hkj : k ≠ jobId := fun hc => hqm (hc ▸ hkQM)
          obtain ⟨h1, h2, h3, h4⟩ := hmem k hkQM
          rw [hABs] at h4
          refine ⟨h1, by rw [hgup k hkj]; exact h2,
            by rw [hgup k hkj]; exact h3, ?_⟩
          simp only [List.count_append, List.count_cons] at h4 ⊢
          simp [hkj, Ne.symm hkj] at h4 ⊢
          omega
    · intro kh hm hq
      rw [Store.hashes_rpush] at hm
      rcases mem_updateA_strong hnd hm with ⟨hm', _⟩ | he
      · obtain ⟨hpv, hin⟩ := hrec kh hm' hq
        exact ⟨hpv, (mem_rpush_iff (s.hset jobId (uploadRecord jobId fn p
          ts)) (qn p) jobId (prioQ kh.2) kh.1).mpr (Or.inl hin)⟩
      · subst he
        have hmjd : Hash.merge (s.hgetall jobId) (uploadRecord jobId fn p
            ts) = uploadRecord jobId fn p ts := by
          rw [hbase]
          rfl
        simp only [hmjd]
        constructor
        · show (Hash.get (uploadRecord jobId fn p ts)
            "priority").getD "1" ∈ _
          show (some p).getD "1" ∈ _
          simpa using hp
        · show jobId ∈ ((s.hset jobId (uploadRecord jobId fn p ts)).rpush
            (qn p) jobId).lrange (prioQ (uploadRecord jobId fn p ts))
          have hpq : prioQ (uploadRecord jobId fn p ts) = qn p := rfl
          rw [hpq, Store.lrange_rpush_self]
          exact List.mem_append_right _ (List.mem_cons_self _ _)
  · have hres : (upload jobId fn p ts s).1 = s := by
      simp [upload, hp]
    rw [hres]
    exact ⟨hnd, hwq, hmem, hrec⟩

theorem Store.lrange_lrem_self (s : Store) (k v : String) :
    (s.lrem k v).lrange k = (s.lrange k).filter (fun x => x != v) :=
  Store.lrange_setList_self s k _

theorem Store.lrange_lrem_ne (s : Store) {k q : String} (hne : q ≠ k)
    (v : String) : (s.lrem k v).lrange q = s.lrange q :=
  Store.lrange_setList_ne s hne _

theorem count_filterOut (l : List String) {k v : String} (hne : k ≠ v) :
    (l.filter (fun x => x != v)).count k = l.count k := by
  induction l with
  | nil => rfl
  | cons a t ih =>
    rw [List.filter_cons]
    by_cases ha : (a != v) = true
    · rw [if_pos ha, List.count_cons, List.count_cons, ih]
    · have hav : a = v := by simpa using ha
      rw [if_neg ha, ih, List.count_cons_of_ne (fun hc => hne
        (hc.trans hav))]

theorem lrange_delete_chain (s : Store) (jobId : String)
    (hjq : jobId ∉ queueNames) {q : String} (hq : q ∈ queueNames) :
    ((((s.lrem (qn "0") jobId).lrem (qn "1") jobId).lrem (qn "2")
        jobId).del jobId).lrange q
      = (s.lrange q).filter (fun x => x != jobId) := by
  have e01 : qn "0" ≠ qn "1" := by decide
  have e02 : qn "0" ≠ qn "2" := by decide
  have e12 : qn "1" ≠ qn "2" := by decide
  have hqj : q ≠ jobId := fun hc => hjq (hc ▸ hq)
  have hq3 : q = qn "0" ∨ q = qn "1" ∨ q = qn "2" := by
    simpa [queueNames] using hq
  rw [Store.lrange_del_ne _ hqj]
  rcases hq3 with h | h | h
  · subst h
    rw [Store.lrange_lrem_ne _ e02, Store.lrange_lrem_ne _ e01,
      Store.lrange_lrem_self]
  · subst h
    rw [Store.lrange_lrem_ne _ e12, Store.lrange_lrem_self,
      Store.lrange_lrem_ne _ (Ne.symm e01)]
  · subst h
    rw [Store.lrange_lrem_self, Store.lrange_lrem_ne _ (Ne.symm e12),
      Store.lrange_lrem_ne _ (Ne.symm e02)]

theorem Inv_deleteJ (s : Store) (jobId : String) (hInv : Inv s) :
    Inv (delete_job jobId s).1 := by
  obtain ⟨hnd, hwq, hmem, hrec⟩ := hInv
  by_cases hnil : s.hgetall jobId = []
  · have hres : (delete_job jobId s).1 = s := by
      simp [delete_job, hnil]
    rw [hres]
    exact ⟨hnd, hwq, hmem, hrec⟩
  · have hres : (delete_job jobId s).1
        = ((((s.lrem (qn "0") jobId).lrem (qn "1") jobId).lrem (qn "2")
            jobId).del jobId) := by
      simp [delete_job, hnil]
    have hkh : (jobId, s.hgetall jobId) ∈ s.hashes :=
      mem_of_lookupA (lookupA_of_hgetall_ne s jobId hnil)
    have hjq : jobId ∉ queueNames := (hwq _ hkh).2
    have hhashes : ((((s.lrem (qn "0") jobId).lrem (qn "1")
        jobId).lrem (qn "2") jobId).del jobId).hashes
        = s.hashes.filter (fun kv => kv.1 != jobId) := rfl
    have hget : ∀ k, k ≠ jobId →
        ((((s.lrem (qn "0") jobId).lrem (qn "1") jobId).lrem (qn "2")
            jobId).del jobId).hgetall k = s.hgetall k := by
      intro k hk
      have : (((s.lrem (qn "0") jobId).lrem (qn "1") jobId).lrem (qn "2")
          jobId).hgetall k = s.hgetall k := rfl
      rw [Store.hgetall_del_ne _ hk]
      exact this
    have hQM : ((((s.lrem (qn "0") jobId).lrem (qn "1") jobId).lrem
        (qn "2") jobId).del jobId).queueMembers
        = (s.lrange (qn "0")).filter (fun x => x != jobId) ++
          (s.lrange (qn "1")).filter (fun x => x != jobId) ++
          (s.lrange (qn "2")).filter (fun x => x != jobId) := by
      unfold Store.queueMembers
      rw [lrange_delete_chain s jobId hjq (by simp [queueNames]),
        lrange_delete_chain s jobId hjq (by simp [queueNames]),
        lrange_delete_chain s jobId hjq (by simp [queueNames])]
    rw [hres]
    refine ⟨?_, ?_, ?_, ?_⟩
    · rw [hhashes]
      exact ((List.filter_sublist _).map Prod.fst).nodup hnd
    · intro kh hm
      rw [hhashes] at hm
      exact hwq kh (List.mem_of_mem_filter hm)
    · intro k hk
      rw [hQM] at hk ⊢
      have hsplit : k ∈ s.queueMembers ∧ k ≠ jobId := by
        unfold Store.queueMembers
        rcases List.mem_append.mp hk with hk' | hk'
        · rcases List.mem_append.mp hk' with hk'' | hk''
          · obtain ⟨hm', hp'⟩ := List.mem_filter.mp hk''
            exact ⟨List.mem_append_left _ (List.mem_append_left _ hm'),
              by simpa using hp'⟩
          · obtain ⟨hm', hp'⟩ := List.mem_filter.mp hk''
            exact ⟨List.mem_append_left _ (List.mem_append_right _ hm'),
              by simpa using hp'⟩
        · obtain ⟨hm', hp'⟩ := List.mem_filter.mp hk'
          exact ⟨List.mem_append_right _ hm', by simpa using hp'⟩
      obtain ⟨hkQM, hkj⟩ := hsplit
      obtain ⟨h1, h2, h3, h4⟩ := hmem k hkQM
      refine ⟨h1, by rw [hget k hkj]; exact h2,
        by rw [hget k hkj]; exact h3, ?_⟩
      unfold Store.queueMembers at h4
      simp only [List.count_append] at h4 ⊢
      rw [count_filterOut _ hkj, count_filterOut _ hkj,
        count_filterOut _ hkj]
      exact h4
    · intro kh hm hq
      rw [hhashes] at hm
      obtain ⟨hm', hp'⟩ := List.mem_filter.mp hm
      have hkj : kh.1 ≠ jobId := by simpa using hp'
      obtain ⟨hpv, hin⟩ := hrec kh hm' hq
      refine ⟨hpv, ?_⟩
      rw [lrange_delete_chain s jobId hjq (prioQ_mem_queueNames hpv)]
      exact List.mem_filter.mpr ⟨hin, by simpa using hkj⟩

theorem dequeue_some_facts (s : Store) {q x : String} {xs : List String}
    (hd : dequeueHighestSpec s = some (q, x, xs)) :
    q ∈ queueNames ∧ s.lrange q = x :: xs := by
  unfold dequeueHighestSpec at hd
  cases h0 : s.lrange (qn "0") with
  | cons a t =>
    rw [h0] at hd
    simp at hd
    obtain ⟨rfl, rfl, rfl⟩ := hd
    exact ⟨by simp [queueNames], h0⟩
  | nil =>
    rw [h0] at hd
    cases h1 : s.lrange (qn "1") with
    | cons a t =>
      rw [h1] at hd
      simp at hd
      obtain ⟨rfl, rfl, rfl⟩ := hd
      exact ⟨by simp [queueNames], h1⟩
    | nil =>
      rw [h1] at hd
      cases h2 : s.lrange (qn "2") with
      | cons a t =>
        rw [h2] at hd
        simp at hd
        obtain ⟨rfl, rfl, rfl⟩ := hd
        exact ⟨by simp [queueNames], h2⟩
      | nil =>
        rw [h2] at hd
        simp at hd

theorem Inv_claim (s : Store) (ip now : String) (hInv : Inv s) :
    Inv (claim_job ip now s).1 := by
  have hne : ∀ q ∈ queueNames, "" ∉ s.lrange q := by
    intro q hq hmem0
    exact (hInv.2.2.1 "" (mem_QM_of_mem_lrange s hq hmem0)).1 rfl
  have hE := claim_job_eq s ip now hne
  cases hd : dequeueHighestSpec s with
  | none =>
    rw [hd] at hE
    rw [show (claim_job ip now s).1 = s by rw [hE]]
    exact hInv
  | some v =>
    obtain ⟨q, x, xs⟩ := v
    rw [hd] at hE
    obtain ⟨hnd, hwq, hmem, hrec⟩ := hInv
    obtain ⟨hqmem, hqeq⟩ := dequeue_some_facts s hd
    have hxQM : x ∈ s.queueMembers :=
      mem_QM_of_mem_lrange s hqmem (by rw [hqeq]; exact List.mem_cons_self _ _)
    obtain ⟨hx0, hxst, hxid, hxcnt⟩ := hmem x hxQM
    have hxne : s.hgetall x ≠ [] := Hash.ne_nil_of_get _ hxst
    have hxkh : (x, s.hgetall x) ∈ s.hashes :=
      mem_of_lookupA (lookupA_of_hgetall_ne s x hxne)
    have hxwf : (s.hgetall x).wff := (hwq _ hxkh).1
    have hxqn : x ∉ queueNames := (hwq _ hxkh).2
    have hxkey : x ∈ s.hashes.map Prod.fst := List.mem_map_of_mem _ hxkh
    obtain ⟨A, B, hABs, hAB1, hABq, hABr⟩ := QM_setList_pop s hqmem hqeq
    have hxA : x ∉ A ∧ x ∉ B := by
      rw [hABs] at hxcnt
      simp only [List.count_append, List.count_cons] at hxcnt
      constructor
      · intro hc
        have := List.count_pos_iff.mpr hc
        simp at hxcnt
        omega
      · intro hc
        have := List.count_pos_iff.mpr hc
        simp at hxcnt
        omega
    -- the claimed mapping and the result store
    have hg1 : (s.setList q xs).hgetall x = s.hgetall x := rfl
    have hmwf : (claimedUpdate ((s.setList q xs).hgetall x) ip now).wff := by
      rw [hg1]
      unfold claimedUpdate
      exact Hash.wff_set _ _ _ (Hash.wff_set _ _ _
        (Hash.wff_set _ _ _ hxwf))
    have hmst : Hash.get (claimedUpdate ((s.setList q xs).hgetall x) ip
        now) "status" = some "claimed" := by
      rw [hg1]
      unfold claimedUpdate
      rw [Hash.get_set_ne _ (by decide), Hash.get_set_ne _ (by decide),
        Hash.get_set_self]
    rw [show (claim_job ip now s).1 = (s.setList q xs).hset x
        (claimedUpdate ((s.setList q xs).hgetall x) ip now) by rw [hE]]
    have hkeys : ((s.setList q xs).hset x
        (claimedUpdate ((s.setList q xs).hgetall x) ip now)).hashes.map
          Prod.fst = s.hashes.map Prod.fst := by
      show (updateA s.hashes x _).map Prod.fst = _
      rw [keys_updateA, if_pos hxkey]
    have hgy : ∀ k, k ≠ x → ((s.setList q xs).hset x
        (claimedUpdate ((s.setList q xs).hgetall x) ip now)).hgetall k
        = s.hgetall k := by
      intro k hk
      rw [Store.hgetall_hset_ne _ hk]
      rfl
    refine ⟨by rw [hkeys]; exact hnd, ?_, ?_, ?_⟩
    · intro kh hm
      rcases mem_updateA_strong hnd hm with ⟨hm', _⟩ | he
      · exact hwq kh hm'
      · subst he
        exact ⟨by rw [hg1]; exact Hash.wff_merge _ _ hxwf, hxqn⟩
    · intro k hk
      have hkQM1 : k ∈ A ++ B := by
        rw [QM_hset] at hk
        rw [hAB1] at hk
        exact hk
      have hkx : k ≠ x := by
        intro hc
        subst hc
        rcases List.mem_append.mp hkQM1 with hc' | hc'
        · exact hxA.1 hc'
        · exact hxA.2 hc'
      have hkQM : k ∈ s.queueMembers := by
        rw [hABs]
        rcases List.mem_append.mp hkQM1 with hc' | hc'
        · exact List.mem_append_left _ hc'
        · exact List.mem_append_right _ (List.mem_cons_of_mem _ hc')
      obtain ⟨h1, h2, h3, h4⟩ := hmem k hkQM
      refine ⟨h1, by rw [hgy k hkx]; exact h2,
        by rw [hgy k hkx]; exact h3, ?_⟩
      rw [QM_hset, hAB1]
      rw [hABs] at h4
      simp only [List.count_append, List.count_cons] at h4 ⊢
      simp [Ne.symm hkx, hkx] at h4 ⊢
      omega
    · intro kh hm hq'
      rcases mem_updateA_strong hnd hm with ⟨hm', hkx⟩ | he
      · obtain ⟨hpv, hin⟩ := hrec kh hm' hq'
        refine ⟨hpv, ?_⟩
        rw [show ((s.setList q xs).hset x (claimedUpdate ((s.setList q
          xs).hgetall x) ip now)).lrange (prioQ kh.2)
            = (s.setList q xs).lrange (prioQ kh.2) from rfl]
        by_cases hpq : prioQ kh.2 = q
        · rw [hpq, hABq]
          rw [hpq, hqeq] at hin
          rcases List.mem_cons.mp hin with hc | hc
          · exact absurd hc hkx
          · exact hc
        · rw [hABr (prioQ kh.2) (prioQ_mem_queueNames hpv) hpq]
          exact hin
      · subst he
        exfalso
        have : Hash.get (Hash.merge ((s.setList q xs).hgetall x)
            (claimedUpdate ((s.setList q xs).hgetall x) ip now)) "status"
            = some "claimed" := by
          rw [Hash.get_merge _ _ hmwf "status", hmst]
        rw [show isQueuedRec (Hash.merge ((s.setList q xs).hgetall x)
          (claimedUpdate ((s.setList q xs).hgetall x) ip now))
            = (Hash.get (Hash.merge ((s.setList q xs).hgetall x)
              (claimedUpdate ((s.setList q xs).hgetall x) ip now))
              "status" = some "queued") from rfl] at hq'
        rw [this] at hq'
        simp at hq'

/-- C1 counterexample: the Priority-Queue/status invariant — a job id sits
in the Priority Queue Set iff its status is `queued`, never more than once
— is NOT preserved by every operation as claimed: `upload_result`
(reportResult) on a still-queued job sets its status to `completed` while
leaving its id enqueued. -/
theorem C1_counterexample :
    Inv exQueued ∧ ¬Inv ((Op.report "j1" "res.txt" "20").apply exQueued) := by
  constructor
  · decide
  · decide

/-- C1 (amended): every operation of the core — submit, claim,
markCollected, deleteJob, recovery — preserves the invariant (each queue
member is a nonempty job id held exactly once across the three sequences
with status `queued` in exactly its own priority's sequence, and
conversely), given submit's fresh-uuid side condition; reportResult
preserves it exactly when its by-convention precondition holds, i.e. the
target job is no longer in status `queued`. -/
theorem C1_operations_preserve_invariant (op : Op) (s : Store)
    (hInv : Inv s) (hok : opOk op s) : Inv (op.apply s) := by
  cases op with
  | submit jobId fn p ts =>
    obtain ⟨h1, h2, h3, h4⟩ := hok
    exact Inv_submit s jobId fn p ts hInv h1 h2 h3 h4
  | claim ip now => exact Inv_claim s ip now hInv
  | report jobId rn now => exact Inv_report s jobId rn now hInv hok
  | collect jobId => exact Inv_collect s jobId hInv
  | deleteJ jobId => exact Inv_deleteJ s jobId hInv
  | recover => exact Inv_recover s hInv

/-- C1 witness: a concrete invariant-satisfying store, a concrete
operation whose side condition holds, and the preserved invariant. -/
theorem C1_witness :
    Inv exCompleted ∧ opOk (Op.report "j2" "r2.txt" "21") exCompleted ∧
    Inv ((Op.report "j2" "r2.txt" "21").apply exCompleted) :=
  ⟨by decide, by decide,
   C1_operations_preserve_invariant (Op.report "j2" "r2.txt" "21")
     exCompleted (by decide) (by decide)⟩

end PiCluster
